import Mathlib

/-!
Verification development for the optimized LIKE index
(src/versions/v14-f.c, with the reference backtracking verifier
match_pattern shared by src/unnamed/part_002).

Values and patterns are byte strings; we model bytes as Fin 256 and a C
string as a List of bytes (C strings are NUL-terminated, so the embedded
lists stand for the bytes before the terminator).
-/

set_option maxHeartbeats 1000000

set_option maxRecDepth 8000

abbrev Byte := Fin 256

abbrev BStr := List Byte

/-- The pattern byte read as the multi-character wildcard, ASCII 37. -/
def percent : Byte := ⟨37, by omega⟩

/-- The pattern byte read as the single-character wildcard, ASCII 95. -/
def underscore : Byte := ⟨95, by omega⟩

/-- Safe indexed read, standing for the C expression s[i] under a bounds
guard established separately (all uses are guarded by i < length). -/
def cAt (s : BStr) (i : ℕ) : Byte := s.getD i ⟨0, by omega⟩

/-- Loop measure for the backtracking matcher: decreases at every
iteration of the C while loop of match_pattern (v14-f.c lines 1848-1869),
given the reachable-state invariant mtch ≤ si. -/
def mpMeasure (s p : BStr) (pi mtch : ℕ) : ℕ :=
  (s.length - mtch) * (p.length + 1) + (p.length - pi)

/-- The while loop of match_pattern (v14-f.c lines 1843-1875): state is
(si, pi, star, mtch) where star = some st stands for the C star index
(star = -1 becomes none).  The hypothesis hm records the invariant
mtch ≤ si that every reachable state of the C loop satisfies; the Bool
result does not depend on it. -/
def mpLoop (s p : BStr) (si pi mtch : ℕ) (star : Option ℕ) (hm : mtch ≤ si) : Bool :=
  if hsi : si < s.length then
    if pi < p.length ∧ (cAt p pi = cAt s si ∨ cAt p pi = underscore) then
      mpLoop s p (si + 1) (pi + 1) mtch star (Nat.le_succ_of_le hm)
    else if pi < p.length ∧ cAt p pi = percent then
      mpLoop s p si (pi + 1) si (some pi) le_rfl
    else
      match star with
      | some st => mpLoop s p (mtch + 1) (st + 1) (mtch + 1) (some st) le_rfl
      | none => false
  else
    (p.drop pi).all (fun c => decide (c = percent))
termination_by mpMeasure s p pi mtch
decreasing_by
  · -- literal/underscore step: pi increases below p.length, mtch unchanged
    rename_i h1
    have hpi : pi < p.length := h1.1
    unfold mpMeasure
    have : p.length - (pi + 1) < p.length - pi := by omega
    omega
  · -- percent step: mtch rises to si ≥ mtch, pi increases below p.length
    rename_i h1 h2
    have hpi : pi < p.length := h2.1
    unfold mpMeasure
    have hmul : (s.length - si) * (p.length + 1) ≤ (s.length - mtch) * (p.length + 1) :=
      Nat.mul_le_mul_right _ (Nat.sub_le_sub_left hm _)
    omega
  · -- backtracking step: mtch increases and stays below s.length
    unfold mpMeasure
    have hms : mtch < s.length := lt_of_le_of_lt hm hsi
    have h1 : (s.length - (mtch + 1)) * (p.length + 1) + (p.length + 1)
        = (s.length - mtch) * (p.length + 1) := by
      have : s.length - mtch = (s.length - (mtch + 1)) + 1 := by omega
      rw [this, Nat.succ_mul]
    have h2 : p.length - (st + 1) < p.length + 1 := by omega
    omega

/-- match_pattern (v14-f.c lines 1843-1875, identical in
src/unnamed/part_002 lines 291-338): the reference backtracking matcher
for % and _ wildcards, entered at state (0, 0, star = -1, match = 0). -/
def match_pattern (s p : BStr) : Bool :=
  mpLoop s p 0 0 0 none (Nat.le_refl 0)

/-- Fuel-indexed small-step version of the match_pattern loop, with no
invariant argument: returns none when the fuel runs out before the loop
exits.  Used to state that the C loop terminates on every input. -/
def mpFuel (s p : BStr) : ℕ → ℕ → ℕ → ℕ → Option ℕ → Option Bool
  | 0, _, _, _, _ => none
  | n + 1, si, pi, mtch, star =>
    if si < s.length then
      if pi < p.length ∧ (cAt p pi = cAt s si ∨ cAt p pi = underscore) then
        mpFuel s p n (si + 1) (pi + 1) mtch star
      else if pi < p.length ∧ cAt p pi = percent then
        mpFuel s p n si (pi + 1) si (some pi)
      else
        match star with
        | some st => mpFuel s p n (mtch + 1) (st + 1) (mtch + 1) (some st)
        | none => some false
    else
      some ((p.drop pi).all (fun c => decide (c = percent)))

/-- Declarative SQL LIKE semantics used as the specification-side yardstick
for the matcher: percent matches any (possibly empty) run of bytes,
underscore exactly one byte, any other byte itself. -/
def likeRec : BStr → BStr → Bool
  | [], [] => true
  | [], c :: ps => decide (c = percent) && likeRec [] ps
  | _ :: _, [] => false
  | a :: ss, c :: ps =>
    if c = percent then likeRec (a :: ss) ps || likeRec ss (c :: ps)
    else (decide (c = underscore) || decide (c = a)) && likeRec ss ps
termination_by s p => (s.length, p.length)

/-- Rigid (percent-free) segment match: every pattern byte is underscore
or equal to the corresponding subject byte, lengths equal. -/
def rigidMatch : BStr → BStr → Bool
  | [], [] => true
  | c :: cs, a :: ys => (decide (c = underscore) || decide (c = a)) && rigidMatch cs ys
  | _, _ => false

theorem mpMeasure_lt_advance (s p : BStr) (pi mtch : ℕ) (hpi : pi < p.length) :
    mpMeasure s p (pi + 1) mtch < mpMeasure s p pi mtch := by
  unfold mpMeasure; omega

theorem mpMeasure_lt_star (s p : BStr) (pi si mtch : ℕ) (hpi : pi < p.length)
    (hm : mtch ≤ si) : mpMeasure s p (pi + 1) si < mpMeasure s p pi mtch := by
  unfold mpMeasure
  have hmul : (s.length - si) * (p.length + 1) ≤ (s.length - mtch) * (p.length + 1) :=
    Nat.mul_le_mul_right _ (Nat.sub_le_sub_left hm _)
  omega

theorem mpMeasure_lt_backtrack (s p : BStr) (pi mtch st : ℕ) (hms : mtch < s.length) :
    mpMeasure s p (st + 1) (mtch + 1) < mpMeasure s p pi mtch := by
  unfold mpMeasure
  have h1 : (s.length - (mtch + 1)) * (p.length + 1) + (p.length + 1)
      = (s.length - mtch) * (p.length + 1) := by
    have : s.length - mtch = (s.length - (mtch + 1)) + 1 := by omega
    rw [this, Nat.succ_mul]
  have h2 : p.length - (st + 1) < p.length + 1 := by omega
  omega

/-- Any state of the match_pattern loop that satisfies the reachable-state
invariant mtch ≤ si runs to completion with enough fuel, producing the
value of the loop. -/
theorem mpFuel_runs (s p : BStr) :
    ∀ N si pi mtch star (hm : mtch ≤ si), mpMeasure s p pi mtch ≤ N →
      ∃ n, mpFuel s p n si pi mtch star = some (mpLoop s p si pi mtch star hm) := by
  intro N
  induction N using Nat.strong_induction_on with
  | _ N IH =>
    intro si pi mtch star hm hle
    rw [mpLoop.eq_def]
    by_cases hsi : si < s.length
    · by_cases h1 : pi < p.length ∧ (cAt p pi = cAt s si ∨ cAt p pi = underscore)
      · have hlt := mpMeasure_lt_advance s p pi mtch h1.1
        obtain ⟨n, hn⟩ := IH (mpMeasure s p (pi + 1) mtch) (by omega)
          (si + 1) (pi + 1) mtch star (Nat.le_succ_of_le hm) le_rfl
        refine ⟨n + 1, ?_⟩
        rw [dif_pos hsi, if_pos h1]
        simp only [mpFuel]
        rw [if_pos hsi, if_pos h1]
        exact hn
      · by_cases h2 : pi < p.length ∧ cAt p pi = percent
        · have hlt := mpMeasure_lt_star s p pi si mtch h2.1 hm
          obtain ⟨n, hn⟩ := IH (mpMeasure s p (pi + 1) si) (by omega)
            si (pi + 1) si (some pi) le_rfl le_rfl
          refine ⟨n + 1, ?_⟩
          rw [dif_pos hsi, if_neg h1, if_pos h2]
          simp only [mpFuel]
          rw [if_pos hsi, if_neg h1, if_pos h2]
          exact hn
        · match star with
          | some st =>
            have hlt := mpMeasure_lt_backtrack s p pi mtch st (lt_of_le_of_lt hm hsi)
            obtain ⟨n, hn⟩ := IH (mpMeasure s p (st + 1) (mtch + 1)) (by omega)
              (mtch + 1) (st + 1) (mtch + 1) (some st) le_rfl le_rfl
            refine ⟨n + 1, ?_⟩
            rw [dif_pos hsi, if_neg h1, if_neg h2]
            simp only [mpFuel]
            rw [if_pos hsi, if_neg h1, if_neg h2]
            exact hn
          | none =>
            refine ⟨1, ?_⟩
            rw [dif_pos hsi, if_neg h1, if_neg h2]
            simp only [mpFuel]
            rw [if_pos hsi, if_neg h1, if_neg h2]
    · refine ⟨1, ?_⟩
      rw [dif_neg hsi]
      simp only [mpFuel]
      rw [if_neg hsi]

/-- C10: the match probe is total.  For every subject and pattern the
fueled transcription of the C loop halts with some fuel, and the value it
returns is the Bool computed by match_pattern. -/
theorem match_pattern_terminates (s p : BStr) :
    ∃ n, mpFuel s p n 0 0 0 none = some (match_pattern s p) :=
  mpFuel_runs s p (mpMeasure s p 0 0) 0 0 0 none (Nat.le_refl 0) le_rfl

theorem bool_eq_of_iff {a b : Bool} (h : a = true ↔ b = true) : a = b := by
  cases a <;> cases b <;> simp_all

theorem percent_ne_underscore : percent ≠ underscore := by decide

theorem get?_eq_cAt {l : BStr} {i : ℕ} (h : i < l.length) :
    l.get? i = some (cAt l i) := by
  simp [cAt, List.getD_eq_getElem?_getD, List.get?_eq_getElem?,
    List.getElem?_eq_getElem h]

theorem drop_eq_cAt_cons {l : BStr} {i : ℕ} (h : i < l.length) :
    l.drop i = cAt l i :: l.drop (i + 1) := by
  have := List.drop_eq_getElem_cons h
  rw [this]
  congr 1
  simp [cAt, List.getD_eq_getElem?_getD, List.getElem?_eq_getElem h]

theorem cAt_eq_getElem {l : BStr} {i : ℕ} (h : i < l.length) : cAt l i = l[i] := by
  simp [cAt, List.getD_eq_getElem?_getD, List.getElem?_eq_getElem h]

theorem cAt_mem {l : BStr} {i : ℕ} (h : i < l.length) : cAt l i ∈ l := by
  rw [cAt_eq_getElem h]
  exact List.getElem_mem h

theorem likeRec_nil_cons (c : Byte) (ps : BStr) :
    likeRec [] (c :: ps) = (decide (c = percent) && likeRec [] ps) := by
  simp only [likeRec]

theorem likeRec_cons_nil (a : Byte) (ss : BStr) : likeRec (a :: ss) [] = false := by
  simp [likeRec]

theorem likeRec_cons_percent (a : Byte) (ss q : BStr) :
    likeRec (a :: ss) (percent :: q)
      = (likeRec (a :: ss) q || likeRec ss (percent :: q)) := by
  rw [likeRec]
  simp

theorem likeRec_cons_ne {c : Byte} (hc : c ≠ percent) (a : Byte) (ss q : BStr) :
    likeRec (a :: ss) (c :: q)
      = ((decide (c = underscore) || decide (c = a)) && likeRec ss q) := by
  rw [likeRec]
  simp [hc]

/-- likeRec on the empty subject accepts exactly the all-percent patterns. -/
theorem likeRec_nil (q : BStr) :
    likeRec [] q = q.all (fun c => decide (c = percent)) := by
  induction q with
  | nil => simp [likeRec]
  | cons c ps ih => simp [likeRec_nil_cons, ih]

/-- Leading percent in likeRec means: drop some prefix of the subject. -/
theorem likeRec_percent (s q : BStr) :
    likeRec s (percent :: q) = true ↔
      ∃ k, k ≤ s.length ∧ likeRec (s.drop k) q = true := by
  induction s with
  | nil =>
    rw [likeRec_nil_cons]
    constructor
    · intro h
      refine ⟨0, by simp, ?_⟩
      simpa using h
    · rintro ⟨k, hk, h⟩
      obtain rfl : k = 0 := by simpa using hk
      simpa using h
  | cons a ss ih =>
    rw [likeRec_cons_percent]
    simp only [Bool.or_eq_true]
    constructor
    · rintro (h | h)
      · exact ⟨0, by simp, by simpa using h⟩
      · obtain ⟨k, hk, h2⟩ := ih.mp h
        exact ⟨k + 1, by simpa using hk, by simpa using h2⟩
    · rintro ⟨k, hk, h⟩
      cases k with
      | zero => exact Or.inl (by simpa using h)
      | succ j =>
        exact Or.inr (ih.mpr ⟨j, by simpa using hk, by simpa using h⟩)

/-- Decomposition of likeRec across a percent-free pattern segment. -/
theorem likeRec_append_rigid (seg : BStr) (hseg : percent ∉ seg) :
    ∀ (x q : BStr),
      (likeRec x (seg ++ q) = true ↔
        seg.length ≤ x.length ∧
        rigidMatch seg (x.take seg.length) = true ∧
        likeRec (x.drop seg.length) q = true) := by
  induction seg with
  | nil =>
    intro x q
    simp [rigidMatch]
  | cons c cs ih =>
    intro x q
    have hc : c ≠ percent := fun h => hseg (by simp [h])
    have hcs : percent ∉ cs := fun h => hseg (by simp [h])
    cases x with
    | nil =>
      rw [List.cons_append, likeRec_nil_cons]
      simp [hc]
    | cons a xs =>
      rw [List.cons_append, likeRec_cons_ne hc]
      simp only [List.length_cons, List.take_succ_cons, List.drop_succ_cons,
        rigidMatch, Bool.and_eq_true, Nat.add_le_add_iff_right]
      rw [ih hcs xs q]
      constructor
      · rintro ⟨h1, h2, h3, h4⟩
        exact ⟨by simpa using h2, ⟨h1, h3⟩, h4⟩
      · rintro ⟨h2, ⟨h1, h3⟩, h4⟩
        exact ⟨h1, by simpa using h2, h3, h4⟩

/-- Extending a rigid segment match by one matching byte on the right. -/
theorem rigidMatch_snoc {seg t : BStr} {c a : Byte}
    (h : rigidMatch seg t = true) (hca : c = underscore ∨ c = a) :
    rigidMatch (seg ++ [c]) (t ++ [a]) = true := by
  induction seg generalizing t with
  | nil =>
    cases t with
    | nil =>
      simp only [List.nil_append, rigidMatch, Bool.and_eq_true]
      refine ⟨?_, trivial⟩
      rcases hca with h1 | h1 <;> simp [h1]
    | cons b ts => simp [rigidMatch] at h
  | cons c0 cs ih =>
    cases t with
    | nil => simp [rigidMatch] at h
    | cons b ts =>
      simp only [rigidMatch, Bool.and_eq_true] at h
      simp only [List.cons_append, rigidMatch, Bool.and_eq_true]
      exact ⟨h.1, ih h.2⟩

/-- What a loop state is worth: for star = none the current thread must
match; after a star was saved at st, the loop accepts iff some retry point
k ≥ mtch lets the pattern after the star match the rest of the subject. -/
def mpPost (s p : BStr) (si pi mtch : ℕ) : Option ℕ → Prop
  | none => likeRec (s.drop si) (p.drop pi) = true
  | some st => ∃ k, mtch ≤ k ∧ k ≤ s.length ∧ likeRec (s.drop k) (p.drop (st + 1)) = true

/-- Loop invariant: after a star at st, the pattern consumed since the
star is a percent-free segment that rigidly matched s[mtch..si). -/
def starInv (s p : BStr) (si pi mtch : ℕ) : Option ℕ → Prop
  | none => True
  | some _st => ∃ seg : BStr, p.drop (_st + 1) = seg ++ p.drop pi ∧
      seg.length = si - mtch ∧ percent ∉ seg ∧
      rigidMatch seg ((s.drop mtch).take seg.length) = true

/-- In a state where neither loop guard fires, the current thread of the
matcher is dead. -/
theorem likeRec_mismatch_false (s p : BStr) (si pi : ℕ) (hsi : si < s.length)
    (h1 : ¬(pi < p.length ∧ (cAt p pi = cAt s si ∨ cAt p pi = underscore)))
    (h2 : ¬(pi < p.length ∧ cAt p pi = percent)) :
    likeRec (s.drop si) (p.drop pi) = false := by
  by_cases hpi : pi < p.length
  · have hc1 : ¬(cAt p pi = cAt s si ∨ cAt p pi = underscore) := fun h => h1 ⟨hpi, h⟩
    have hc2 : cAt p pi ≠ percent := fun h => h2 ⟨hpi, h⟩
    push_neg at hc1
    rw [drop_eq_cAt_cons hsi, drop_eq_cAt_cons hpi, likeRec_cons_ne hc2]
    simp [hc1.1, hc1.2]
  · have hnil : p.drop pi = [] := List.drop_eq_nil_of_le (by omega)
    rw [hnil, drop_eq_cAt_cons hsi, likeRec_cons_nil]

/-- The rigidly matched segment can be traded for advancing the subject
pointer from mtch to si. -/
theorem seg_transfer (s : BStr) (mtch si : ℕ) (hm : mtch ≤ si) (hsl : si ≤ s.length)
    {seg : BStr} (hlen : seg.length = si - mtch) (hnp : percent ∉ seg)
    (hrig : rigidMatch seg ((s.drop mtch).take seg.length) = true) (q : BStr) :
    likeRec (s.drop mtch) (seg ++ q) = likeRec (s.drop si) q := by
  apply bool_eq_of_iff
  rw [likeRec_append_rigid seg hnp]
  have hxlen : (s.drop mtch).length = s.length - mtch := by simp
  have hLle : seg.length ≤ (s.drop mtch).length := by omega
  have hdd : (s.drop mtch).drop seg.length = s.drop si := by
    rw [List.drop_drop]
    congr 1
    omega
  constructor
  · rintro ⟨_, _, h3⟩
    rwa [hdd] at h3
  · intro h
    exact ⟨hLle, hrig, by rwa [hdd]⟩

/-- Correctness of the match_pattern loop against the declarative LIKE
semantics, for subjects that contain no percent byte. -/
theorem mpLoop_post (s p : BStr) (hs : percent ∉ s) :
    ∀ N si pi mtch star (hm : mtch ≤ si), si ≤ s.length →
      starInv s p si pi mtch star → mpMeasure s p pi mtch ≤ N →
      (mpLoop s p si pi mtch star hm = true ↔ mpPost s p si pi mtch star) := by
  intro N
  induction N using Nat.strong_induction_on with
  | _ N IH =>
    intro si pi mtch star hm hsl hinv hle
    rw [mpLoop.eq_def]
    by_cases hsi : si < s.length
    · rw [dif_pos hsi]
      have hsz : cAt s si ≠ percent := by
        intro h
        exact hs (h ▸ cAt_mem hsi)
      by_cases h1 : pi < p.length ∧ (cAt p pi = cAt s si ∨ cAt p pi = underscore)
      · rw [if_pos h1]
        have hcp : cAt p pi ≠ percent := by
          rcases h1.2 with h | h
          · rw [h]; exact hsz
          · rw [h]; exact percent_ne_underscore.symm
        have hlt := mpMeasure_lt_advance s p pi mtch h1.1
        have hinv2 : starInv s p (si + 1) (pi + 1) mtch star := by
          cases star with
          | none => trivial
          | some st =>
            obtain ⟨seg, hdec, hlen, hnp, hrig⟩ := hinv
            refine ⟨seg ++ [cAt p pi], ?_, ?_, ?_, ?_⟩
            · rw [hdec, drop_eq_cAt_cons h1.1, List.append_cons]
            · simp only [List.length_append, List.length_singleton]
              omega
            · intro hmem
              rcases List.mem_append.mp hmem with h | h
              · exact hnp h
              · simp only [List.mem_singleton] at h
                exact hcp h.symm
            · have hLsi : mtch + seg.length = si := by omega
              have htake : (s.drop mtch).take (seg.length + 1)
                  = (s.drop mtch).take seg.length ++ [cAt s si] := by
                rw [List.take_succ]
                congr 1
                rw [List.getElem?_drop, hLsi, List.getElem?_eq_getElem hsi,
                  ← cAt_eq_getElem hsi]
                rfl
              rw [List.length_append, List.length_singleton, htake]
              exact rigidMatch_snoc hrig h1.2.symm
        have hiter := IH (mpMeasure s p (pi + 1) mtch) (by omega) (si + 1) (pi + 1)
          mtch star (Nat.le_succ_of_le hm) hsi hinv2 le_rfl
        rw [hiter]
        cases star with
        | none =>
          simp only [mpPost]
          rw [drop_eq_cAt_cons hsi, drop_eq_cAt_cons h1.1, likeRec_cons_ne hcp]
          have hcond : (decide (cAt p pi = underscore) || decide (cAt p pi = cAt s si)) = true := by
            rcases h1.2 with h | h <;> simp [h]
          rw [hcond, Bool.true_and]
        | some st => simp only [mpPost]
      · rw [if_neg h1]
        by_cases h2 : pi < p.length ∧ cAt p pi = percent
        · rw [if_pos h2]
          have hpp : p.drop pi = percent :: p.drop (pi + 1) := by
            rw [drop_eq_cAt_cons h2.1, h2.2]
          have hlt := mpMeasure_lt_star s p pi si mtch h2.1 hm
          have hinv2 : starInv s p si (pi + 1) si (some pi) := by
            refine ⟨[], by simp, by simp, by simp, ?_⟩
            simp [rigidMatch]
          have hiter := IH (mpMeasure s p (pi + 1) si) (by omega) si (pi + 1)
            si (some pi) le_rfl hsl hinv2 le_rfl
          rw [hiter]
          cases star with
          | none =>
            simp only [mpPost]
            rw [hpp, likeRec_percent]
            constructor
            · rintro ⟨k, hk1, hk2, h⟩
              refine ⟨k - si, ?_, ?_⟩
              · simp only [List.length_drop]
                omega
              · have hdd : (s.drop si).drop (k - si) = s.drop k := by
                  rw [List.drop_drop]
                  congr 1
                  omega
                rwa [hdd]
            · rintro ⟨j, hj, h⟩
              simp only [List.length_drop] at hj
              refine ⟨si + j, by omega, by omega, ?_⟩
              have hdd : (s.drop si).drop j = s.drop (si + j) := by
                rw [List.drop_drop]
              rwa [hdd] at h
          | some st =>
            obtain ⟨seg, hdec, hlen, hnp, hrig⟩ := hinv
            simp only [mpPost]
            constructor
            · rintro ⟨k2, hk1, hk2, h⟩
              refine ⟨mtch, le_rfl, by omega, ?_⟩
              rw [hdec, seg_transfer s mtch si hm hsl hlen hnp hrig, hpp,
                likeRec_percent]
              refine ⟨k2 - si, ?_, ?_⟩
              · simp only [List.length_drop]
                omega
              · have hdd : (s.drop si).drop (k2 - si) = s.drop k2 := by
                  rw [List.drop_drop]
                  congr 1
                  omega
                rwa [hdd]
            · rintro ⟨k, hk1, hk2, h⟩
              rw [hdec, hpp] at h
              rw [likeRec_append_rigid seg hnp] at h
              obtain ⟨hL, _, h3⟩ := h
              rw [List.drop_drop, likeRec_percent] at h3
              obtain ⟨j, hj, h4⟩ := h3
              rw [List.drop_drop] at h4
              simp only [List.length_drop] at hL hj
              refine ⟨k + seg.length + j, by omega, by omega, h4⟩
        · rw [if_neg h2]
          have hdead := likeRec_mismatch_false s p si pi hsi h1 h2
          cases star with
          | none =>
            simp only [mpPost, hdead]
          | some st =>
            obtain ⟨seg, hdec, hlen, hnp, hrig⟩ := hinv
            have hFm : likeRec (s.drop mtch) (p.drop (st + 1)) = false := by
              rw [hdec, seg_transfer s mtch si hm hsl hlen hnp hrig, hdead]
            have hlt := mpMeasure_lt_backtrack s p pi mtch st (lt_of_le_of_lt hm hsi)
            have hinv2 : starInv s p (mtch + 1) (st + 1) (mtch + 1) (some st) := by
              refine ⟨[], by simp, by simp, by simp, ?_⟩
              simp [rigidMatch]
            have hiter := IH (mpMeasure s p (st + 1) (mtch + 1)) (by omega)
              (mtch + 1) (st + 1) (mtch + 1) (some st) le_rfl (by omega) hinv2 le_rfl
            rw [hiter]
            simp only [mpPost]
            constructor
            · rintro ⟨k, hk1, hk2, h⟩
              exact ⟨k, by omega, hk2, h⟩
            · rintro ⟨k, hk1, hk2, h⟩
              rcases Nat.eq_or_lt_of_le hk1 with heq | hlt2
              · exfalso
                rw [← heq] at h
                rw [h] at hFm
                cases hFm
              · exact ⟨k, by omega, hk2, h⟩
    · rw [dif_neg hsi]
      have hsieq : si = s.length := by omega
      have hnil : s.drop si = [] := List.drop_eq_nil_of_le (by omega)
      cases star with
      | none =>
        simp only [mpPost]
        rw [hnil, likeRec_nil]
      | some st =>
        obtain ⟨seg, hdec, hlen, hnp, hrig⟩ := hinv
        simp only [mpPost]
        constructor
        · intro hall
          refine ⟨mtch, le_rfl, by omega, ?_⟩
          rw [hdec, seg_transfer s mtch si hm hsl hlen hnp hrig, hnil, likeRec_nil]
          exact hall
        · rintro ⟨k, hk1, hk2, h⟩
          rw [hdec, likeRec_append_rigid seg hnp] at h
          obtain ⟨hL, _, h3⟩ := h
          simp only [List.length_drop] at hL
          have hkm : k = mtch := by omega
          subst hkm
          rw [List.drop_drop] at h3
          have hfin : k + seg.length = s.length := by omega
          rw [hfin, List.drop_length, likeRec_nil] at h3
          exact h3

/-- For subjects with no percent byte, match_pattern agrees with the
declarative LIKE semantics.  (Subjects containing a percent byte break
this: the loop consumes a pattern percent as a literal.) -/
theorem match_pattern_eq_likeRec {s : BStr} (hs : percent ∉ s) (p : BStr) :
    match_pattern s p = likeRec s p := by
  apply bool_eq_of_iff
  have h := mpLoop_post s p hs (mpMeasure s p 0 0) 0 0 0 none (Nat.le_refl 0)
    (by omega) trivial le_rfl
  unfold match_pattern
  rw [h]
  simp only [mpPost, List.drop_zero]

/-- Two consecutive percents collapse in the declarative semantics. -/
theorem likeRec_percent_percent (s q : BStr) :
    likeRec s (percent :: percent :: q) = likeRec s (percent :: q) := by
  apply bool_eq_of_iff
  rw [likeRec_percent]
  constructor
  · rintro ⟨k, hk, h⟩
    rw [likeRec_percent] at h
    obtain ⟨j, hj, h2⟩ := h
    rw [List.drop_drop] at h2
    rw [likeRec_percent]
    simp only [List.length_drop] at hj
    exact ⟨k + j, by omega, h2⟩
  · intro h
    exact ⟨0, by omega, by simpa using h⟩

/-- Pattern congruence: a pointwise-equivalent pattern tail can be
substituted under any shared pattern prefix. -/
theorem likeRec_congr_append (p1 p2 : BStr)
    (hp : ∀ t : BStr, likeRec t p1 = likeRec t p2) :
    ∀ (a s : BStr), likeRec s (a ++ p1) = likeRec s (a ++ p2) := by
  intro a
  induction a with
  | nil =>
    intro s
    simpa using hp s
  | cons c a2 iha =>
    intro s
    induction s with
    | nil =>
      rw [List.cons_append, List.cons_append, likeRec_nil_cons, likeRec_nil_cons,
        iha []]
    | cons x ss ihs =>
      by_cases hc : c = percent
      · subst hc
        rw [List.cons_append, List.cons_append, likeRec_cons_percent,
          likeRec_cons_percent, iha (x :: ss), ← List.cons_append,
          ← List.cons_append, ihs]
      · rw [List.cons_append, List.cons_append, likeRec_cons_ne hc,
          likeRec_cons_ne hc, iha ss]

/-- Amended C9: for subjects containing no percent byte, collapsing a
double percent anywhere in the pattern does not change match_pattern. -/
theorem match_pattern_percent_collapse (s a b : BStr) (hs : percent ∉ s) :
    match_pattern s (a ++ percent :: percent :: b)
      = match_pattern s (a ++ percent :: b) := by
  rw [match_pattern_eq_likeRec hs, match_pattern_eq_likeRec hs]
  exact likeRec_congr_append (percent :: percent :: b) (percent :: b)
    (fun t => likeRec_percent_percent t b) a s

/-! ## The index built by build_optimized_index (v14-f.c lines 1122-1334)

The index is a pure function of the scanned column: we embed it as
derived functions of the record list d (record id = list position,
NULL source values already mapped to the empty string by the build loop).
A C bitmap pointer that can be NULL becomes an Option (Finset ℕ); a
bitmap entry exists in the C index exactly when its set is nonempty. -/

def MAX_POSITIONS : ℕ := 256

/-- Stored value of a record: build keeps the full string in data[idx]
(v14-f.c line 1222), even beyond MAX_POSITIONS. -/
def value (d : List BStr) (id : ℕ) : BStr := d.getD id []

/-- The prefix of a value that the positional indexing loop sees:
build clamps len to MAX_POSITIONS (v14-f.c lines 1219-1220). -/
def truncVal (v : BStr) : BStr := v.take MAX_POSITIONS

/-- global_index->max_len: maximum clamped length over all records. -/
def maxLenIdx (d : List BStr) : ℕ :=
  d.foldr (fun v m => max (min v.length MAX_POSITIONS) m) 0

/-- global_index->length_idx.max_length = max_len + 1 (line 1284). -/
def maxLength (d : List BStr) : ℕ := maxLenIdx d + 1

/-- Set of records whose byte at forward position pos equals c, within the
clamped prefix (build loop lines 1227-1238). -/
def posBitmapSet (d : List BStr) (c : Byte) (pos : ℕ) : Finset ℕ :=
  (Finset.range d.length).filter (fun id => (truncVal (value d id)).get? pos = some c)

/-- get_pos_bitmap (lines 301-311): NULL when no record has (c, pos). -/
def get_pos_bitmap (d : List BStr) (c : Byte) (pos : ℕ) : Option (Finset ℕ) :=
  if (posBitmapSet d c pos).Nonempty then some (posBitmapSet d c pos) else none

/-- Set of records whose j-th byte from the end of the clamped prefix
equals c; j stands for the C negative offset -(1+j) (lines 1240-1250). -/
def negBitmapSet (d : List BStr) (c : Byte) (j : ℕ) : Finset ℕ :=
  (Finset.range d.length).filter
    (fun id => (truncVal (value d id)).reverse.get? j = some c)

/-- get_neg_bitmap (lines 314-324). -/
def get_neg_bitmap (d : List BStr) (c : Byte) (j : ℕ) : Option (Finset ℕ) :=
  if (negBitmapSet d c j).Nonempty then some (negBitmapSet d c j) else none

/-- Set of records whose clamped prefix contains byte c somewhere:
char_cache[c] as built by the union loop (lines 1259-1278). -/
def charCacheSet (d : List BStr) (c : Byte) : Finset ℕ :=
  (Finset.range d.length).filter (fun id => c ∈ truncVal (value d id))

/-- char_cache[c] lookup: NULL when no record contains c. -/
def char_cache (d : List BStr) (c : Byte) : Option (Finset ℕ) :=
  if (charCacheSet d c).Nonempty then some (charCacheSet d c) else none

/-- length_idx.length_bitmaps[k]: built from the full strlen of the stored
value (line 1295), only for k below max_length (line 1296), non-NULL only
when some record has that length (lines 1299-1302).  The k < maxLength
guard embeds the array bound that every C access checks first. -/
def lengthBitmap (d : List BStr) (k : ℕ) : Option (Finset ℕ) :=
  if k < maxLength d then
    (if ((Finset.range d.length).filter (fun id => (value d id).length = k)).Nonempty
      then some ((Finset.range d.length).filter (fun id => (value d id).length = k))
      else none)
  else none

/-- Reading a possibly-NULL bitmap as the set it denotes. -/
def asSet : Option (Finset ℕ) → Finset ℕ
  | some s => s
  | none => ∅

/-- get_length_range (lines 835-855): union of the length bitmaps from
min_len up to max_len, where a negative or oversized max_len argument is
replaced by max_length - 1. -/
def get_length_range (d : List BStr) (minLen : ℕ) (maxLenArg : ℤ) : Finset ℕ :=
  let hi : ℕ :=
    if maxLenArg < 0 ∨ (maxLength d : ℤ) < maxLenArg then maxLength d - 1
    else maxLenArg.toNat
  (Finset.Icc minLen hi).biUnion (fun len => asSet (lengthBitmap d len))

/-- Union over every byte of the forward bitmaps at pos: the any_char_bm
computed for an underscore in match_at_pos (lines 508-525); NULL when no
record has any byte at pos. -/
def anyCharSet (d : List BStr) (pos : ℕ) : Finset ℕ :=
  Finset.univ.biUnion (fun c : Byte => posBitmapSet d c pos)

def any_char_bitmap (d : List BStr) (pos : ℕ) : Option (Finset ℕ) :=
  if (anyCharSet d pos).Nonempty then some (anyCharSet d pos) else none

/-- The corresponding union for the reverse index (lines 610-627). -/
def anyNegSet (d : List BStr) (j : ℕ) : Finset ℕ :=
  Finset.univ.biUnion (fun c : Byte => negBitmapSet d c j)

def any_neg_bitmap (d : List BStr) (j : ℕ) : Option (Finset ℕ) :=
  if (anyNegSet d j).Nonempty then some (anyNegSet d j) else none

/-- The C idiom result = result ? roaring_and(result, u) : u, reading a
NULL accumulator as no constraint yet. -/
def accInter (acc : Option (Finset ℕ)) (u : Finset ℕ) : Finset ℕ :=
  match acc with
  | none => u
  | some r => r ∩ u

/-- The position loop of match_at_pos (lines 502-578), consuming the slice
byte by byte; acc is the C result pointer (none = NULL; the acc = none
test is the C if (!result)).  Early returns on an empty intersection, a
missing literal bitmap or a dead underscore position are the C returns at
lines 540-549 and 556-575. -/
def matchAtPosLoop (d : List BStr) : BStr → ℕ → Option (Finset ℕ) → Finset ℕ
  | [], _, acc => asSet acc
  | c :: rest, pos, acc =>
    if c = underscore then
      match any_char_bitmap d pos with
      | none => ∅
      | some u =>
        if acc = none then matchAtPosLoop d rest (pos + 1) (some u)
        else if accInter acc u = ∅ then accInter acc u
        else matchAtPosLoop d rest (pos + 1) (some (accInter acc u))
    else
      match get_pos_bitmap d c pos with
      | none => ∅
      | some cb =>
        if acc = none then matchAtPosLoop d rest (pos + 1) (some cb)
        else if accInter acc cb = ∅ then accInter acc cb
        else matchAtPosLoop d rest (pos + 1) (some (accInter acc cb))

/-- match_at_pos (lines 484-581): required-length filter first (with its
early empty return, lines 495-499), then the positional loop. -/
def match_at_pos (d : List BStr) (slice : BStr) (start_pos : ℕ) : Finset ℕ :=
  let required := start_pos + slice.length
  if 0 < required ∧ required ≤ maxLength d then
    (if get_length_range d required (-1) = ∅ then get_length_range d required (-1)
     else matchAtPosLoop d slice start_pos (some (get_length_range d required (-1))))
  else matchAtPosLoop d slice start_pos none

/-- The descending loop of match_at_neg_pos (lines 602-677): the counter n
runs from slice.length down to 0, processing slice index i = n - 1 at
reverse offset slice.length - 1 - i (the C pos = -(plen - i)). -/
def matchAtNegLoop (d : List BStr) (slice : BStr) : ℕ → Option (Finset ℕ) → Finset ℕ
  | 0, acc => asSet acc
  | n + 1, acc =>
    if slice.getD n ⟨0, by omega⟩ = underscore then
      match any_neg_bitmap d (slice.length - 1 - n) with
      | none => ∅
      | some u =>
        if acc = none then matchAtNegLoop d slice n (some u)
        else if accInter acc u = ∅ then accInter acc u
        else matchAtNegLoop d slice n (some (accInter acc u))
    else
      match get_neg_bitmap d (slice.getD n ⟨0, by omega⟩) (slice.length - 1 - n) with
      | none => ∅
      | some cb =>
        if acc = none then matchAtNegLoop d slice n (some cb)
        else if accInter acc cb = ∅ then accInter acc cb
        else matchAtNegLoop d slice n (some (accInter acc cb))

/-- match_at_neg_pos (lines 584-680); the end_offset parameter is unused
in the C body and kept for signature fidelity (every call passes 0). -/
def match_at_neg_pos (d : List BStr) (slice : BStr) (end_offset : ℕ) : Finset ℕ :=
  let required := slice.length
  if 0 < required ∧ required ≤ maxLength d then
    (if get_length_range d required (-1) = ∅ then get_length_range d required (-1)
     else matchAtNegLoop d slice slice.length (some (get_length_range d required (-1))))
  else matchAtNegLoop d slice slice.length none

/-- Character loop of get_char_candidates (lines 689-718) with its seen
array; acc is the C result pointer.  Returning none models the final
return of a NULL result when the slice has no literal byte. -/
def getCharCandidatesLoop (d : List BStr) :
    BStr → Finset Byte → Option (Finset ℕ) → Option (Finset ℕ)
  | [], _, acc => acc
  | c :: rest, seen, acc =>
    if c ≠ underscore ∧ c ≠ percent ∧ c ∉ seen then
      match char_cache d c with
      | none => some ∅
      | some cc =>
        match acc with
        | none => getCharCandidatesLoop d rest (insert c seen) (some cc)
        | some r =>
          if r ∩ cc = ∅ then some (r ∩ cc)
          else getCharCandidatesLoop d rest (insert c seen) (some (r ∩ cc))
    else getCharCandidatesLoop d rest seen acc

/-- get_char_candidates (lines 683-721). -/
def get_char_candidates (d : List BStr) (pattern : BStr) : Option (Finset ℕ) :=
  getCharCandidatesLoop d pattern ∅ none

/-- matches_at_position (lines 724-749): rigid match of the slice against
the beginning of str, underscore consuming one existing byte. -/
def matches_at_position : BStr → BStr → Bool
  | _, [] => true
  | [], _ :: _ => false
  | a :: ss, c :: ps =>
    if c = underscore then matches_at_position ss ps
    else if a = c then matches_at_position ss ps
    else false

/-- find_pattern (lines 752-764), returning the index of the first
position whose suffix starts with a rigid match of pattern. -/
def find_pattern : BStr → BStr → Option ℕ
  | [], _ => none
  | a :: ss, pat =>
    if matches_at_position (a :: ss) pat then some 0
    else (find_pattern ss pat).map (· + 1)

/-- contains_substring (lines 767-770). -/
def contains_substring (s pat : BStr) : Bool := (find_pattern s pat).isSome

/-- The per-candidate slice scan of verify_multislice_pattern (lines
796-822): locate each slice in order, then advance past it (the inner
while loop advances exactly the slice length, every matched byte
existing). -/
def verifySlices : BStr → List BStr → Bool
  | _, [] => true
  | s, sl :: rest =>
    match find_pattern s sl with
    | none => false
    | some q => verifySlices (s.drop (q + sl.length)) rest

/-- PatternInfo (lines 392-397). -/
structure PatternInfo where
  slices : List BStr
  starts_with_percent : Bool
  ends_with_percent : Bool

/-- The slice-splitting loop of analyze_pattern (lines 439-466): acc holds
the bytes of the current slice in reverse. -/
def splitSlicesAux : BStr → BStr → List BStr
  | [], acc => if acc = [] then [] else [acc.reverse]
  | c :: rest, acc =>
    if c = percent then
      (if acc = [] then splitSlicesAux rest [] else acc.reverse :: splitSlicesAux rest [])
    else splitSlicesAux rest (c :: acc)

/-- analyze_pattern (lines 424-470). -/
def analyze_pattern (p : BStr) : PatternInfo :=
  { slices := splitSlicesAux p []
    starts_with_percent := decide (p ≠ [] ∧ p.head? = some percent)
    ends_with_percent := decide (p ≠ [] ∧ p.getLast? = some percent) }

/-- pattern_length_with_underscores (lines 412-422). -/
def pattern_length_with_underscores (p : BStr) : ℕ :=
  p.countP (fun c => decide (c ≠ percent))

/-- roaring_to_array (lines 205-231): ascending enumeration of a bitmap
(the C returns NULL with count 0 for the empty bitmap; callers treat that
as the empty array). -/
def roaring_to_array (b : Finset ℕ) : List ℕ := b.sort (· ≤ ·)

/-- verify_multislice_pattern (lines 773-832): keep the candidates whose
stored value passes the ordered slice scan. -/
def verify_multislice_pattern (d : List BStr) (cands : Finset ℕ)
    (info : PatternInfo) : Finset ℕ :=
  cands.filter (fun id => verifySlices (value d id) info.slices)

/-- The multi-slice candidate loop (lines 1033-1057).  The C passes a NULL
get_char_candidates result straight into roaring_is_empty (first slice) or
roaring_and (later slices); both dereference NULL, which we model by
returning none. -/
def candLoop (d : List BStr) : List BStr → Option (Finset ℕ) → Option (Finset ℕ)
  | [], acc => acc
  | sl :: rest, acc =>
    match
      (match acc with
       | none => get_char_candidates d sl
       | some r =>
         match get_char_candidates d sl with
         | some t => some (r ∩ t)
         | none => none) with
    | none => none
    | some c2 => if c2 = ∅ then some ∅ else candLoop d rest (some c2)

/-- The single-slice dispatch of optimized_query (lines 939-1024).
The none result mirrors the NULL dereference when get_char_candidates
returns NULL (unreachable from optimized_query: such a pattern is caught
by the pure-wildcard fast path). -/
def singleSlicePath (d : List BStr) (info : PatternInfo) : Option (List ℕ) :=
  match get_char_candidates d (info.slices.headD []) with
  | none => none
  | some cand =>
    if cand = ∅ then some []
    else if ¬info.starts_with_percent ∧ ¬info.ends_with_percent then
      (match lengthBitmap d (pattern_length_with_underscores (info.slices.headD [])) with
       | some lb => some (roaring_to_array (match_at_pos d (info.slices.headD []) 0 ∩ lb))
       | none => some (roaring_to_array (∅ : Finset ℕ)))
    else if ¬info.starts_with_percent ∧ info.ends_with_percent then
      some (roaring_to_array (match_at_pos d (info.slices.headD []) 0 ∩ cand))
    else if info.starts_with_percent ∧ ¬info.ends_with_percent then
      some (roaring_to_array (match_at_neg_pos d (info.slices.headD []) 0 ∩ cand))
    else
      some (roaring_to_array
        (cand.filter (fun id => contains_substring (value d id) (info.slices.headD []))))

/-- Tail of the multi-slice branch after the end-anchor constraint
(lines 1097-1109): empty check, verification, extraction. -/
def multiVerifyStage (d : List BStr) (info : PatternInfo) (r3 : Finset ℕ) :
    Option (List ℕ) :=
  if r3 = ∅ then some []
  else some (roaring_to_array (verify_multislice_pattern d r3 info))

/-- Multi-slice branch after the start-anchor constraint (lines
1080-1104): empty check, then the end-anchor (last slice) constraint. -/
def multiSuffixStage (d : List BStr) (info : PatternInfo) (r2 : Finset ℕ) :
    Option (List ℕ) :=
  if r2 = ∅ then some []
  else multiVerifyStage d info
    (if info.ends_with_percent then r2
     else r2 ∩ match_at_neg_pos d (info.slices.getLastD []) 0)

/-- Multi-slice branch after the length filter (lines 1064-1087): empty
check, then the start-anchor (first slice) constraint. -/
def multiPrefixStage (d : List BStr) (info : PatternInfo) (r1 : Finset ℕ) :
    Option (List ℕ) :=
  if r1 = ∅ then some []
  else multiSuffixStage d info
    (if info.starts_with_percent then r1
     else r1 ∩ match_at_pos d (info.slices.headD []) 0)

/-- The multi-slice branch of optimized_query (lines 1026-1110),
candidate loop then length filter then the staged constraints. -/
def multiSlicePath (d : List BStr) (info : PatternInfo) : Option (List ℕ) :=
  match candLoop d info.slices none with
  | none => none
  | some cand =>
    if cand = ∅ then some []
    else multiPrefixStage d info
      (cand ∩ get_length_range d
        ((info.slices.map pattern_length_with_underscores).sum) (-1))

/-- optimized_query (v14-f.c lines 859-1117).  The result none stands for
the NULL dereference reachable in the multi-slice path; otherwise some xs
is the id array together with its count.  The pure-wildcard fast path
counts underscores and percents over the whole pattern, which agrees with
the C early-break loop whenever only_wildcards is true. -/
def optimized_query (d : List BStr) (p : BStr) : Option (List ℕ) :=
  if p = [percent] then some (List.range d.length)
  else if p.all (fun c => decide (c = underscore) || decide (c = percent)) then
    (if ¬p.any (fun c => decide (c = percent)) then
      some (roaring_to_array (asSet (lengthBitmap d
        (p.countP (fun c => decide (c = underscore))))))
    else
      some (roaring_to_array (get_length_range d
        (p.countP (fun c => decide (c = underscore))) (-1))))
  else
    if (analyze_pattern p).slices.length = 0 then some (List.range d.length)
    else if (analyze_pattern p).slices.length = 1 then singleSlicePath d (analyze_pattern p)
    else multiSlicePath d (analyze_pattern p)

/-- optimized_like_query (lines 1336-1356): with no published index it
logs a warning and returns count 0; otherwise the result count. -/
def optimized_like_query (g : Option (List BStr)) (p : BStr) : Option ℕ :=
  match g with
  | none => some 0
  | some d => (optimized_query d p).map List.length

/-- optimized_like_query_rows (lines 1358-1423): with no published index
the set-returning function finishes with no rows; otherwise it emits
(id, value) pairs in array order. -/
def optimized_like_query_rows (g : Option (List BStr)) (p : BStr) :
    Option (List (ℕ × BStr)) :=
  match g with
  | none => some []
  | some d => (optimized_query d p).map (fun l => l.map (fun id => (id, value d id)))

theorem roaring_to_array_empty : roaring_to_array ∅ = [] :=
  Finset.sort_empty _

theorem roaring_to_array_sorted (b : Finset ℕ) :
    (roaring_to_array b).Sorted (· < ·) :=
  Finset.sort_sorted_lt b

theorem mem_roaring_to_array {b : Finset ℕ} {id : ℕ} :
    id ∈ roaring_to_array b ↔ id ∈ b :=
  Finset.mem_sort (· ≤ ·)

theorem asSet_lengthBitmap (d : List BStr) (k : ℕ) :
    asSet (lengthBitmap d k)
      = if k < maxLength d
        then (Finset.range d.length).filter (fun id => (value d id).length = k)
        else ∅ := by
  unfold lengthBitmap
  by_cases hk : k < maxLength d
  · rw [if_pos hk, if_pos hk]
    by_cases hne : ((Finset.range d.length).filter
        (fun id => (value d id).length = k)).Nonempty
    · rw [if_pos hne]
      rfl
    · rw [if_neg hne]
      rw [Finset.not_nonempty_iff_eq_empty] at hne
      rw [hne]
      rfl
  · rw [if_neg hk, if_neg hk]
    rfl

theorem mem_asSet_lengthBitmap {d : List BStr} {k id : ℕ} :
    id ∈ asSet (lengthBitmap d k) ↔
      k < maxLength d ∧ id < d.length ∧ (value d id).length = k := by
  rw [asSet_lengthBitmap]
  by_cases hk : k < maxLength d
  · rw [if_pos hk]
    simp [Finset.mem_filter, hk]
  · rw [if_neg hk]
    simp [hk]

theorem min_le_maxLenIdx {d : List BStr} {v : BStr} (hv : v ∈ d) :
    min v.length MAX_POSITIONS ≤ maxLenIdx d := by
  induction d with
  | nil => cases hv
  | cons w rest ih =>
    rcases List.mem_cons.mp hv with h | h
    · subst h
      unfold maxLenIdx
      simp [List.foldr_cons]
    · have := ih h
      unfold maxLenIdx at this ⊢
      simp only [List.foldr_cons]
      omega

theorem maxLenIdx_le (d : List BStr) : maxLenIdx d ≤ MAX_POSITIONS := by
  induction d with
  | nil => simp [maxLenIdx]
  | cons w rest ih =>
    unfold maxLenIdx at ih ⊢
    simp only [List.foldr_cons]
    omega

theorem value_mem {d : List BStr} {id : ℕ} (hid : id < d.length) :
    value d id ∈ d := by
  unfold value
  rw [List.getD_eq_getElem?_getD, List.getElem?_eq_getElem hid]
  exact List.getElem_mem hid

theorem truncVal_length_le (d : List BStr) {id : ℕ} (hid : id < d.length) :
    (truncVal (value d id)).length ≤ maxLenIdx d := by
  have h := min_le_maxLenIdx (value_mem hid)
  simp only [truncVal, List.length_take]
  omega

theorem get_length_range_neg_one (d : List BStr) (m : ℕ) :
    get_length_range d m (-1)
      = (Finset.range d.length).filter
          (fun id => m ≤ (value d id).length ∧ (value d id).length ≤ maxLenIdx d) := by
  unfold get_length_range
  have hhi : (if (-1 : ℤ) < 0 ∨ (maxLength d : ℤ) < -1 then maxLength d - 1
      else (-1 : ℤ).toNat) = maxLenIdx d := by
    rw [if_pos (Or.inl (by norm_num))]
    simp [maxLength]
  rw [hhi]
  ext id
  simp only [Finset.mem_biUnion, Finset.mem_Icc, mem_asSet_lengthBitmap,
    Finset.mem_filter, Finset.mem_range]
  constructor
  · rintro ⟨len, ⟨h1, h2⟩, _, hid, hlen⟩
    exact ⟨hid, by omega, by omega⟩
  · rintro ⟨hid, h1, h2⟩
    exact ⟨(value d id).length, ⟨h1, h2⟩, by simp [maxLength]; omega, hid, rfl⟩

/-- C5: the empty pattern returns exactly the records whose stored value
is empty, in ascending id order. -/
theorem empty_pattern_exact (d : List BStr) :
    optimized_query d []
      = some (roaring_to_array
          ((Finset.range d.length).filter (fun id => value d id = []))) := by
  unfold optimized_query
  rw [if_neg (by decide), if_pos (by decide), if_pos (by decide)]
  congr 2
  rw [asSet_lengthBitmap, if_pos (by simp [maxLength])]
  congr 1
  funext id
  simp [List.length_eq_zero]

theorem roaring_to_array_singleton (a : ℕ) : roaring_to_array {a} = [a] :=
  Finset.sort_singleton _ a

/-- A one-record corpus whose value has 257 bytes: longer than
MAX_POSITIONS, so the build loop clamps its positional indexing and the
length index skips it entirely. -/
def longCorpus : List BStr := [List.replicate 257 ⟨97, by omega⟩]

/-- A small corpus for exercising the multi-slice crash. -/
def crashCorpus : List BStr := [[97, 98, 99]]

/-- A corpus whose single value contains literal percent bytes. -/
def pctCorpus : List BStr := [[37, 37, 97]]

/-- C7 counterexample: with no index published, the count entry point
returns the count 0 (after a warning) and the rows entry point returns an
empty row set; neither fails. -/
theorem no_index_returns_zero :
    optimized_like_query none [percent] = some 0 ∧
    optimized_like_query_rows none [percent] = some [] :=
  ⟨rfl, rfl⟩

/-- Amended C7: when no index has been built, every count query returns
count 0 and every rows query returns the empty row set; no error value
exists in the code. -/
theorem no_index_behavior (p : BStr) :
    optimized_like_query none p = some 0 ∧
    optimized_like_query_rows none p = some [] :=
  ⟨rfl, rfl⟩

/-- C4: for the pattern consisting of underscore, underscore, percent, a
(the SQL pattern with an all-underscore first slice), get_char_candidates
of the first slice is NULL and optimized_query dereferences it: the query
does not run to completion (modelled by none). -/
theorem multislice_null_candidates :
    get_char_candidates crashCorpus [underscore, underscore] = none ∧
    optimized_query crashCorpus [underscore, underscore, percent, ⟨97, by omega⟩]
      = none := by
  constructor
  · rfl
  · rfl

/-- C1 failing input: on the corpus whose only value is the bytes
percent, percent, a, the suffix query for pattern percent-a returns
record 0, but the reference verifier match_pattern rejects that value:
its loop consumes the pattern percent as a literal byte when the subject
byte is a percent, loses the star, and fails.  So the returned set and
the match_pattern set differ. -/
theorem query_vs_verifier_diverge :
    optimized_query pctCorpus [percent, ⟨97, by omega⟩] = some [0] ∧
    match_pattern [percent, percent, ⟨97, by omega⟩] [percent, ⟨97, by omega⟩]
      = false := by
  constructor
  · have h : optimized_query pctCorpus [percent, ⟨97, by omega⟩]
        = some (roaring_to_array {0}) := rfl
    rw [h, roaring_to_array_singleton]
  · simp [match_pattern, mpLoop, cAt, percent, underscore]

/-- C6 counterexample: the record of length 257 is in no length bitmap at
all — in particular not in L[257], although its stored value has length
257 — because build skips any record whose full strlen reaches
max_length = clamped max_len + 1 = 257. -/
theorem long_record_in_no_length_bitmap :
    (0 ∉ asSet (lengthBitmap longCorpus 257)) ∧
    (value longCorpus 0).length = 257 := by
  constructor
  · decide
  · decide

/-- Amended C6: membership in a length bitmap equals exact full length for
every record of length at most MAX_POSITIONS; a record longer than
MAX_POSITIONS belongs to no length bitmap, so the length index partitions
only those records. -/
theorem length_index_partition (d : List BStr) (id k : ℕ) (hid : id < d.length) :
    ((value d id).length ≤ MAX_POSITIONS →
      (id ∈ asSet (lengthBitmap d k) ↔ (value d id).length = k)) ∧
    (MAX_POSITIONS < (value d id).length → id ∉ asSet (lengthBitmap d k)) := by
  have hmin := min_le_maxLenIdx (value_mem hid)
  have hmax := maxLenIdx_le d
  constructor
  · intro hshort
    rw [mem_asSet_lengthBitmap]
    constructor
    · rintro ⟨_, _, h⟩
      exact h
    · intro h
      refine ⟨?_, hid, h⟩
      unfold maxLength
      omega
  · intro hlong
    rw [mem_asSet_lengthBitmap]
    rintro ⟨hk, _, hlen⟩
    unfold maxLength at hk
    omega

theorem length_index_partition_witness :
    0 < ([[⟨97, by omega⟩]] : List BStr).length ∧
    (((value [[⟨97, by omega⟩]] 0).length ≤ MAX_POSITIONS →
      (0 ∈ asSet (lengthBitmap [[⟨97, by omega⟩]] 1) ↔
        (value [[⟨97, by omega⟩]] 0).length = 1)) ∧
     (MAX_POSITIONS < (value [[⟨97, by omega⟩]] 0).length →
      0 ∉ asSet (lengthBitmap [[⟨97, by omega⟩]] 1))) :=
  ⟨by decide, length_index_partition [[⟨97, by omega⟩]] 0 1 (by decide)⟩

/-- C3 counterexample: for the 257-byte record and the pattern of 257
underscores (no percent), the claim demands exactly the ids of length 257,
i.e. record 0; the query returns the empty set because no length bitmap
covers 257. -/
theorem pure_underscore_misses_long_record :
    optimized_query longCorpus (List.replicate 257 underscore) = some [] ∧
    (value longCorpus 0).length = 257 := by
  constructor
  · have h : optimized_query longCorpus (List.replicate 257 underscore)
        = some (roaring_to_array (asSet (lengthBitmap longCorpus 257))) := by
      unfold optimized_query
      rw [if_neg (by decide), if_pos (by decide), if_pos (by decide)]
      congr 2
    rw [h]
    have h2 : asSet (lengthBitmap longCorpus 257) = ∅ := by decide
    rw [h2, roaring_to_array_empty]
  · decide

theorem roaring_to_array_range (n : ℕ) :
    roaring_to_array (Finset.range n) = List.range n :=
  Finset.sort_range n

theorem length_le_maxLenIdx_clean {d : List BStr}
    (hclean : ∀ v ∈ d, v.length ≤ MAX_POSITIONS) {id : ℕ} (hid : id < d.length) :
    (value d id).length ≤ maxLenIdx d := by
  have h1 := min_le_maxLenIdx (value_mem hid)
  have h2 := hclean _ (value_mem hid)
  omega

/-- Amended C3: over a corpus whose values are all at most MAX_POSITIONS
long, a pure-wildcard pattern with k underscores returns exactly the
records of length k when it has no percent, and exactly those of length
at least k when it has one (the pattern percent alone returning all of
[0, N)). -/
theorem pure_wildcard_query (d : List BStr) (p : BStr)
    (hclean : ∀ v ∈ d, v.length ≤ MAX_POSITIONS)
    (hw : ∀ c ∈ p, c = underscore ∨ c = percent) :
    optimized_query d p
      = some (roaring_to_array ((Finset.range d.length).filter (fun id =>
          if percent ∈ p then
            p.countP (fun c => decide (c = underscore)) ≤ (value d id).length
          else
            (value d id).length = p.countP (fun c => decide (c = underscore))))) := by
  by_cases hp : p = [percent]
  · subst hp
    unfold optimized_query
    rw [if_pos rfl, ← roaring_to_array_range]
    congr 2
    ext id
    simp
    intro _
    rw [show ([percent] : BStr).countP (fun c => decide (c = underscore)) = 0 from by decide]
    exact Nat.zero_le _
  · have hall : p.all (fun c => decide (c = underscore) || decide (c = percent)) = true := by
      rw [List.all_eq_true]
      intro c hc
      rcases hw c hc with h | h <;> simp [h]
    unfold optimized_query
    rw [if_neg hp, if_pos hall]
    by_cases hmem : percent ∈ p
    · have hany : p.any (fun c => decide (c = percent)) = true := by
        rw [List.any_eq_true]
        exact ⟨percent, hmem, by simp⟩
      rw [if_neg (not_not_intro hany)]
      congr 2
      rw [get_length_range_neg_one]
      ext id
      simp only [Finset.mem_filter, Finset.mem_range, if_pos hmem]
      constructor
      · rintro ⟨hid, h1, _⟩
        exact ⟨hid, h1⟩
      · rintro ⟨hid, h1⟩
        exact ⟨hid, h1, length_le_maxLenIdx_clean hclean hid⟩
    · have hany : ¬ p.any (fun c => decide (c = percent)) = true := by
        rw [List.any_eq_true]
        rintro ⟨c, hc, he⟩
        simp only [decide_eq_true_eq] at he
        exact hmem (he ▸ hc)
      rw [if_pos hany]
      congr 2
      rw [asSet_lengthBitmap]
      by_cases hk : p.countP (fun c => decide (c = underscore)) < maxLength d
      · rw [if_pos hk]
        ext id
        simp [if_neg hmem]
      · rw [if_neg hk]
        ext id
        simp only [Finset.not_mem_empty, Finset.mem_filter, Finset.mem_range,
          if_neg hmem, false_iff]
        rintro ⟨hid, hlen⟩
        have := length_le_maxLenIdx_clean hclean hid
        unfold maxLength at hk
        omega

/-- Every slice produced by analyze_pattern is nonempty and percent-free. -/
theorem splitSlicesAux_slices {p acc : BStr} (hacc : percent ∉ acc) :
    ∀ sl ∈ splitSlicesAux p acc, sl ≠ [] ∧ percent ∉ sl := by
  induction p generalizing acc with
  | nil =>
    intro sl hsl
    unfold splitSlicesAux at hsl
    by_cases h : acc = []
    · rw [if_pos h] at hsl
      cases hsl
    · rw [if_neg h] at hsl
      rcases List.mem_singleton.mp hsl with rfl
      refine ⟨by simpa using h, by simpa using hacc⟩
  | cons c rest ih =>
    intro sl hsl
    unfold splitSlicesAux at hsl
    by_cases hc : c = percent
    · rw [if_pos hc] at hsl
      by_cases h : acc = []
      · rw [if_pos h] at hsl
        exact ih (by simp) sl hsl
      · rw [if_neg h] at hsl
        rcases List.mem_cons.mp hsl with rfl | hsl2
        · refine ⟨by simpa using h, by simpa using hacc⟩
        · exact ih (by simp) sl hsl2
    · rw [if_neg hc] at hsl
      refine ih ?_ sl hsl
      simp only [List.mem_cons, not_or]
      exact ⟨fun h => hc h.symm, hacc⟩

/-- Concatenating the slices recovers the non-percent bytes of the
pattern, in order. -/
theorem splitSlicesAux_join (p : BStr) :
    ∀ acc : BStr, (splitSlicesAux p acc).join
      = acc.reverse ++ p.filter (fun c => decide (c ≠ percent)) := by
  induction p with
  | nil =>
    intro acc
    unfold splitSlicesAux
    by_cases h : acc = []
    · rw [if_pos h, h]
      simp
    · rw [if_neg h]
      simp
  | cons c rest ih =>
    intro acc
    unfold splitSlicesAux
    by_cases hc : c = percent
    · rw [if_pos hc]
      by_cases h : acc = []
      · rw [if_pos h, h]
        simp [ih, hc]
      · rw [if_neg h]
        simp [List.join, ih, hc]
    · rw [if_neg hc]
      rw [ih]
      simp [hc]

/-- A percent-free nonempty pattern is one single slice: itself. -/
theorem splitSlicesAux_no_percent {p : BStr} (hp : percent ∉ p) :
    ∀ acc : BStr, splitSlicesAux p acc
      = (if acc.reverse ++ p = [] then [] else [acc.reverse ++ p]) := by
  induction p with
  | nil =>
    intro acc
    unfold splitSlicesAux
    by_cases h : acc = []
    · rw [if_pos h, h]
      simp
    · rw [if_neg h, if_neg (by simpa using h)]
      simp
  | cons c rest ih =>
    intro acc
    have hc : c ≠ percent := fun h => hp (by simp [h])
    have hrest : percent ∉ rest := fun h => hp (by simp [h])
    unfold splitSlicesAux
    rw [if_neg hc, ih hrest (c :: acc)]
    simp

theorem plu_no_percent {sl : BStr} (hnp : percent ∉ sl) :
    pattern_length_with_underscores sl = sl.length := by
  unfold pattern_length_with_underscores
  rw [List.countP_eq_length]
  intro a ha
  simp only [decide_eq_true_eq]
  exact fun h => hnp (h ▸ ha)

/-- The number of non-percent pattern bytes equals the total slice length
as the multi-slice branch computes it. -/
theorem sum_slice_lengths (p : BStr) :
    ((splitSlicesAux p []).map pattern_length_with_underscores).sum
      = pattern_length_with_underscores p := by
  have hmap : (splitSlicesAux p []).map pattern_length_with_underscores
      = (splitSlicesAux p []).map List.length := by
    apply List.map_congr_left
    intro sl hsl
    exact plu_no_percent (splitSlicesAux_slices (by simp) sl hsl).2
  have h := splitSlicesAux_join p []
  have h2 : ((splitSlicesAux p []).map List.length).sum
      = (splitSlicesAux p []).join.length := by
    rw [List.length_join]
  rw [hmap, h2, h]
  simp [pattern_length_with_underscores, List.countP_eq_length_filter]


theorem mem_posBitmapSet {d : List BStr} {c : Byte} {pos id : ℕ}
    (h : id ∈ posBitmapSet d c pos) :
    id < d.length ∧ pos < (truncVal (value d id)).length := by
  unfold posBitmapSet at h
  rw [Finset.mem_filter, Finset.mem_range] at h
  refine ⟨h.1, ?_⟩
  by_contra hge
  rw [List.get?_eq_none.mpr (by omega)] at h
  cases h.2

theorem mem_anyCharSet {d : List BStr} {pos id : ℕ} (h : id ∈ anyCharSet d pos) :
    id < d.length ∧ pos < (truncVal (value d id)).length := by
  unfold anyCharSet at h
  rw [Finset.mem_biUnion] at h
  obtain ⟨c, _, hc⟩ := h
  exact mem_posBitmapSet hc

theorem mem_negBitmapSet {d : List BStr} {c : Byte} {j id : ℕ}
    (h : id ∈ negBitmapSet d c j) :
    id < d.length ∧ j < (truncVal (value d id)).length := by
  unfold negBitmapSet at h
  rw [Finset.mem_filter, Finset.mem_range] at h
  refine ⟨h.1, ?_⟩
  by_contra hge
  rw [List.get?_eq_none.mpr (by simp; omega)] at h
  cases h.2

theorem mem_anyNegSet {d : List BStr} {j id : ℕ} (h : id ∈ anyNegSet d j) :
    id < d.length ∧ j < (truncVal (value d id)).length := by
  unfold anyNegSet at h
  rw [Finset.mem_biUnion] at h
  obtain ⟨c, _, hc⟩ := h
  exact mem_negBitmapSet hc

theorem get_pos_bitmap_some {d : List BStr} {c : Byte} {pos : ℕ} {b : Finset ℕ}
    (h : get_pos_bitmap d c pos = some b) : b = posBitmapSet d c pos := by
  unfold get_pos_bitmap at h
  by_cases hne : (posBitmapSet d c pos).Nonempty
  · rw [if_pos hne] at h
    exact (Option.some_injective _ h).symm
  · rw [if_neg hne] at h
    cases h

theorem any_char_bitmap_some {d : List BStr} {pos : ℕ} {b : Finset ℕ}
    (h : any_char_bitmap d pos = some b) : b = anyCharSet d pos := by
  unfold any_char_bitmap at h
  by_cases hne : (anyCharSet d pos).Nonempty
  · rw [if_pos hne] at h
    exact (Option.some_injective _ h).symm
  · rw [if_neg hne] at h
    cases h

theorem get_neg_bitmap_some {d : List BStr} {c : Byte} {j : ℕ} {b : Finset ℕ}
    (h : get_neg_bitmap d c j = some b) : b = negBitmapSet d c j := by
  unfold get_neg_bitmap at h
  by_cases hne : (negBitmapSet d c j).Nonempty
  · rw [if_pos hne] at h
    exact (Option.some_injective _ h).symm
  · rw [if_neg hne] at h
    cases h

theorem any_neg_bitmap_some {d : List BStr} {j : ℕ} {b : Finset ℕ}
    (h : any_neg_bitmap d j = some b) : b = anyNegSet d j := by
  unfold any_neg_bitmap at h
  by_cases hne : (anyNegSet d j).Nonempty
  · rw [if_pos hne] at h
    exact (Option.some_injective _ h).symm
  · rw [if_neg hne] at h
    cases h

theorem matchAtPosLoop_nil (d : List BStr) (pos : ℕ) (acc : Option (Finset ℕ)) :
    matchAtPosLoop d [] pos acc = asSet acc := by
  unfold matchAtPosLoop
  rfl

theorem matchAtPosLoop_under_none (d : List BStr) (rest : BStr) (pos : ℕ)
    (acc : Option (Finset ℕ)) (hu : any_char_bitmap d pos = none) :
    matchAtPosLoop d (underscore :: rest) pos acc = ∅ := by
  unfold matchAtPosLoop
  rw [if_pos rfl, hu]

theorem matchAtPosLoop_under_start (d : List BStr) (rest : BStr) (pos : ℕ)
    {u : Finset ℕ} (hu : any_char_bitmap d pos = some u) :
    matchAtPosLoop d (underscore :: rest) pos none
      = matchAtPosLoop d rest (pos + 1) (some u) := by
  conv_lhs => unfold matchAtPosLoop
  rw [if_pos rfl, hu]
  rfl

theorem matchAtPosLoop_under_step (d : List BStr) (rest : BStr) (pos : ℕ)
    (r : Finset ℕ) {u : Finset ℕ} (hu : any_char_bitmap d pos = some u) :
    matchAtPosLoop d (underscore :: rest) pos (some r)
      = if r ∩ u = ∅ then r ∩ u else matchAtPosLoop d rest (pos + 1) (some (r ∩ u)) := by
  conv_lhs => unfold matchAtPosLoop
  rw [if_pos rfl, hu]
  rfl

theorem matchAtPosLoop_lit_none (d : List BStr) {c : Byte} (rest : BStr) (pos : ℕ)
    (acc : Option (Finset ℕ)) (hc : c ≠ underscore)
    (hb : get_pos_bitmap d c pos = none) :
    matchAtPosLoop d (c :: rest) pos acc = ∅ := by
  unfold matchAtPosLoop
  rw [if_neg hc, hb]

theorem matchAtPosLoop_lit_start (d : List BStr) {c : Byte} (rest : BStr) (pos : ℕ)
    (hc : c ≠ underscore) {cb : Finset ℕ} (hb : get_pos_bitmap d c pos = some cb) :
    matchAtPosLoop d (c :: rest) pos none
      = matchAtPosLoop d rest (pos + 1) (some cb) := by
  conv_lhs => unfold matchAtPosLoop
  rw [if_neg hc, hb]
  rfl

theorem matchAtPosLoop_lit_step (d : List BStr) {c : Byte} (rest : BStr) (pos : ℕ)
    (r : Finset ℕ) (hc : c ≠ underscore) {cb : Finset ℕ}
    (hb : get_pos_bitmap d c pos = some cb) :
    matchAtPosLoop d (c :: rest) pos (some r)
      = if r ∩ cb = ∅ then r ∩ cb else matchAtPosLoop d rest (pos + 1) (some (r ∩ cb)) := by
  conv_lhs => unfold matchAtPosLoop
  rw [if_neg hc, hb]
  rfl

theorem matchAtNegLoop_zero (d : List BStr) (slice : BStr) (acc : Option (Finset ℕ)) :
    matchAtNegLoop d slice 0 acc = asSet acc := by
  unfold matchAtNegLoop
  rfl

theorem matchAtNegLoop_under_none (d : List BStr) (slice : BStr) (n : ℕ)
    (acc : Option (Finset ℕ)) (hc : slice.getD n ⟨0, by omega⟩ = underscore)
    (hu : any_neg_bitmap d (slice.length - 1 - n) = none) :
    matchAtNegLoop d slice (n + 1) acc = ∅ := by
  conv_lhs => unfold matchAtNegLoop
  rw [if_pos hc, hu]

theorem matchAtNegLoop_under_start (d : List BStr) (slice : BStr) (n : ℕ)
    (hc : slice.getD n ⟨0, by omega⟩ = underscore) {u : Finset ℕ}
    (hu : any_neg_bitmap d (slice.length - 1 - n) = some u) :
    matchAtNegLoop d slice (n + 1) none = matchAtNegLoop d slice n (some u) := by
  conv_lhs => unfold matchAtNegLoop
  rw [if_pos hc, hu]
  rfl

theorem matchAtNegLoop_under_step (d : List BStr) (slice : BStr) (n : ℕ) (r : Finset ℕ)
    (hc : slice.getD n ⟨0, by omega⟩ = underscore) {u : Finset ℕ}
    (hu : any_neg_bitmap d (slice.length - 1 - n) = some u) :
    matchAtNegLoop d slice (n + 1) (some r)
      = if r ∩ u = ∅ then r ∩ u else matchAtNegLoop d slice n (some (r ∩ u)) := by
  conv_lhs => unfold matchAtNegLoop
  rw [if_pos hc, hu]
  rfl

theorem matchAtNegLoop_lit_none (d : List BStr) (slice : BStr) (n : ℕ)
    (acc : Option (Finset ℕ)) (hc : ¬ slice.getD n ⟨0, by omega⟩ = underscore)
    (hb : get_neg_bitmap d (slice.getD n ⟨0, by omega⟩) (slice.length - 1 - n) = none) :
    matchAtNegLoop d slice (n + 1) acc = ∅ := by
  conv_lhs => unfold matchAtNegLoop
  rw [if_neg hc, hb]

theorem matchAtNegLoop_lit_start (d : List BStr) (slice : BStr) (n : ℕ)
    (hc : ¬ slice.getD n ⟨0, by omega⟩ = underscore) {cb : Finset ℕ}
    (hb : get_neg_bitmap d (slice.getD n ⟨0, by omega⟩) (slice.length - 1 - n) = some cb) :
    matchAtNegLoop d slice (n + 1) none = matchAtNegLoop d slice n (some cb) := by
  conv_lhs => unfold matchAtNegLoop
  rw [if_neg hc, hb]
  rfl

theorem matchAtNegLoop_lit_step (d : List BStr) (slice : BStr) (n : ℕ) (r : Finset ℕ)
    (hc : ¬ slice.getD n ⟨0, by omega⟩ = underscore) {cb : Finset ℕ}
    (hb : get_neg_bitmap d (slice.getD n ⟨0, by omega⟩) (slice.length - 1 - n) = some cb) :
    matchAtNegLoop d slice (n + 1) (some r)
      = if r ∩ cb = ∅ then r ∩ cb else matchAtNegLoop d slice n (some (r ∩ cb)) := by
  conv_lhs => unfold matchAtNegLoop
  rw [if_neg hc, hb]
  rfl

theorem matchAtPosLoop_subset_acc (d : List BStr) :
    ∀ (slice : BStr) (pos : ℕ) (r : Finset ℕ),
      matchAtPosLoop d slice pos (some r) ⊆ r := by
  intro slice
  induction slice with
  | nil =>
    intro pos r
    rw [matchAtPosLoop_nil]
    exact fun x hx => hx
  | cons c rest ih =>
    intro pos r
    by_cases hc : c = underscore
    · subst hc
      cases hu : any_char_bitmap d pos with
      | none =>
        rw [matchAtPosLoop_under_none d rest pos _ hu]
        exact Finset.empty_subset r
      | some u =>
        rw [matchAtPosLoop_under_step d rest pos r hu]
        by_cases he : r ∩ u = ∅
        · rw [if_pos he]
          exact Finset.inter_subset_left
        · rw [if_neg he]
          exact subset_trans (ih _ _) Finset.inter_subset_left
    · cases hb : get_pos_bitmap d c pos with
      | none =>
        rw [matchAtPosLoop_lit_none d rest pos _ hc hb]
        exact Finset.empty_subset r
      | some cb =>
        rw [matchAtPosLoop_lit_step d rest pos r hc hb]
        by_cases he : r ∩ cb = ∅
        · rw [if_pos he]
          exact Finset.inter_subset_left
        · rw [if_neg he]
          exact subset_trans (ih _ _) Finset.inter_subset_left

/-- Whatever survives the positional loop has a byte at the last slice
position (within the clamped prefix). -/
theorem matchAtPosLoop_subset_kill (d : List BStr) :
    ∀ (slice : BStr) (pos : ℕ) (acc : Option (Finset ℕ)), slice ≠ [] →
      matchAtPosLoop d slice pos acc ⊆
        (Finset.range d.length).filter
          (fun id => pos + (slice.length - 1) < (truncVal (value d id)).length) := by
  intro slice
  induction slice with
  | nil =>
    intro _ _ h
    cases h rfl
  | cons c rest ih =>
    intro pos acc _
    by_cases hrest : rest = []
    · subst hrest
      intro id hid
      rw [Finset.mem_filter, Finset.mem_range]
      simp only [List.length_cons, Nat.add_sub_cancel, Nat.add_zero]
      by_cases hc : c = underscore
      · subst hc
        cases hu : any_char_bitmap d pos with
        | none =>
          rw [matchAtPosLoop_under_none d [] pos _ hu] at hid
          cases hid
        | some u =>
          have hmem : id ∈ u := by
            cases acc with
            | none =>
              rw [matchAtPosLoop_under_start d [] pos hu, matchAtPosLoop_nil] at hid
              exact hid
            | some r =>
              rw [matchAtPosLoop_under_step d [] pos r hu] at hid
              by_cases he : r ∩ u = ∅
              · rw [if_pos he] at hid
                exact Finset.mem_of_mem_inter_right hid
              · rw [if_neg he, matchAtPosLoop_nil] at hid
                exact Finset.mem_of_mem_inter_right hid
          rw [any_char_bitmap_some hu] at hmem
          exact mem_anyCharSet hmem
      · cases hb : get_pos_bitmap d c pos with
        | none =>
          rw [matchAtPosLoop_lit_none d [] pos _ hc hb] at hid
          cases hid
        | some cb =>
          have hmem : id ∈ cb := by
            cases acc with
            | none =>
              rw [matchAtPosLoop_lit_start d [] pos hc hb, matchAtPosLoop_nil] at hid
              exact hid
            | some r =>
              rw [matchAtPosLoop_lit_step d [] pos r hc hb] at hid
              by_cases he : r ∩ cb = ∅
              · rw [if_pos he] at hid
                exact Finset.mem_of_mem_inter_right hid
              · rw [if_neg he, matchAtPosLoop_nil] at hid
                exact Finset.mem_of_mem_inter_right hid
          rw [get_pos_bitmap_some hb] at hmem
          exact mem_posBitmapSet hmem
    · have hidx : pos + 1 + (rest.length - 1) = pos + ((c :: rest).length - 1) := by
        have : 1 ≤ rest.length := List.length_pos.mpr hrest
        simp only [List.length_cons]
        omega
      intro id hid
      have hrec : ∀ acc2, id ∈ matchAtPosLoop d rest (pos + 1) acc2 →
          id ∈ (Finset.range d.length).filter
            (fun j => pos + ((c :: rest).length - 1) < (truncVal (value d j)).length) := by
        intro acc2 h2
        have := ih (pos + 1) acc2 hrest h2
        rw [Finset.mem_filter] at this ⊢
        exact ⟨this.1, by rw [← hidx]; exact this.2⟩
      by_cases hc : c = underscore
      · subst hc
        cases hu : any_char_bitmap d pos with
        | none =>
          rw [matchAtPosLoop_under_none d rest pos _ hu] at hid
          cases hid
        | some u =>
          cases acc with
          | none =>
            rw [matchAtPosLoop_under_start d rest pos hu] at hid
            exact hrec _ hid
          | some r =>
            rw [matchAtPosLoop_under_step d rest pos r hu] at hid
            by_cases he : r ∩ u = ∅
            · rw [if_pos he, he] at hid
              cases hid
            · rw [if_neg he] at hid
              exact hrec _ hid
      · cases hb : get_pos_bitmap d c pos with
        | none =>
          rw [matchAtPosLoop_lit_none d rest pos _ hc hb] at hid
          cases hid
        | some cb =>
          cases acc with
          | none =>
            rw [matchAtPosLoop_lit_start d rest pos hc hb] at hid
            exact hrec _ hid
          | some r =>
            rw [matchAtPosLoop_lit_step d rest pos r hc hb] at hid
            by_cases he : r ∩ cb = ∅
            · rw [if_pos he, he] at hid
              cases hid
            · rw [if_neg he] at hid
              exact hrec _ hid

theorem matchAtNegLoop_subset_acc (d : List BStr) (slice : BStr) :
    ∀ (n : ℕ) (r : Finset ℕ), matchAtNegLoop d slice n (some r) ⊆ r := by
  intro n
  induction n with
  | zero =>
    intro r
    rw [matchAtNegLoop_zero]
    exact fun x hx => hx
  | succ m ih =>
    intro r
    by_cases hc : slice.getD m ⟨0, by omega⟩ = underscore
    · cases hu : any_neg_bitmap d (slice.length - 1 - m) with
      | none =>
        rw [matchAtNegLoop_under_none d slice m _ hc hu]
        exact Finset.empty_subset r
      | some u =>
        rw [matchAtNegLoop_under_step d slice m r hc hu]
        by_cases he : r ∩ u = ∅
        · rw [if_pos he]
          exact Finset.inter_subset_left
        · rw [if_neg he]
          exact subset_trans (ih _) Finset.inter_subset_left
    · cases hb : get_neg_bitmap d (slice.getD m ⟨0, by omega⟩) (slice.length - 1 - m) with
      | none =>
        rw [matchAtNegLoop_lit_none d slice m _ hc hb]
        exact Finset.empty_subset r
      | some cb =>
        rw [matchAtNegLoop_lit_step d slice m r hc hb]
        by_cases he : r ∩ cb = ∅
        · rw [if_pos he]
          exact Finset.inter_subset_left
        · rw [if_neg he]
          exact subset_trans (ih _) Finset.inter_subset_left

/-- Whatever survives the descending reverse-position loop has a byte at
reverse offset slice.length - 1 (the last offset the loop processes). -/
theorem matchAtNegLoop_subset_kill (d : List BStr) (slice : BStr) :
    ∀ (n : ℕ) (acc : Option (Finset ℕ)), 0 < n →
      matchAtNegLoop d slice n acc ⊆
        (Finset.range d.length).filter
          (fun id => slice.length - 1 < (truncVal (value d id)).length) := by
  intro n
  induction n with
  | zero =>
    intro _ h
    cases h
  | succ m ih =>
    intro acc _
    by_cases hm : m = 0
    · subst hm
      intro id hid
      rw [Finset.mem_filter, Finset.mem_range]
      have hoff : slice.length - 1 - 0 = slice.length - 1 := by omega
      by_cases hc : slice.getD 0 ⟨0, by omega⟩ = underscore
      · cases hu : any_neg_bitmap d (slice.length - 1 - 0) with
        | none =>
          rw [matchAtNegLoop_under_none d slice 0 _ hc hu] at hid
          cases hid
        | some u =>
          have hmem : id ∈ u := by
            cases acc with
            | none =>
              rw [matchAtNegLoop_under_start d slice 0 hc hu,
                matchAtNegLoop_zero] at hid
              exact hid
            | some r =>
              rw [matchAtNegLoop_under_step d slice 0 r hc hu] at hid
              by_cases he : r ∩ u = ∅
              · rw [if_pos he] at hid
                exact Finset.mem_of_mem_inter_right hid
              · rw [if_neg he, matchAtNegLoop_zero] at hid
                exact Finset.mem_of_mem_inter_right hid
          rw [any_neg_bitmap_some hu, hoff] at hmem
          exact mem_anyNegSet hmem
      · cases hb : get_neg_bitmap d (slice.getD 0 ⟨0, by omega⟩) (slice.length - 1 - 0) with
        | none =>
          rw [matchAtNegLoop_lit_none d slice 0 _ hc hb] at hid
          cases hid
        | some cb =>
          have hmem : id ∈ cb := by
            cases acc with
            | none =>
              rw [matchAtNegLoop_lit_start d slice 0 hc hb,
                matchAtNegLoop_zero] at hid
              exact hid
            | some r =>
              rw [matchAtNegLoop_lit_step d slice 0 r hc hb] at hid
              by_cases he : r ∩ cb = ∅
              · rw [if_pos he] at hid
                exact Finset.mem_of_mem_inter_right hid
              · rw [if_neg he, matchAtNegLoop_zero] at hid
                exact Finset.mem_of_mem_inter_right hid
          rw [get_neg_bitmap_some hb, hoff] at hmem
          exact mem_negBitmapSet hmem
    · have hpos : 0 < m := Nat.pos_of_ne_zero hm
      intro id hid
      by_cases hc : slice.getD m ⟨0, by omega⟩ = underscore
      · cases hu : any_neg_bitmap d (slice.length - 1 - m) with
        | none =>
          rw [matchAtNegLoop_under_none d slice m _ hc hu] at hid
          cases hid
        | some u =>
          cases acc with
          | none =>
            rw [matchAtNegLoop_under_start d slice m hc hu] at hid
            exact ih _ hpos hid
          | some r =>
            rw [matchAtNegLoop_under_step d slice m r hc hu] at hid
            by_cases he : r ∩ u = ∅
            · rw [if_pos he, he] at hid
              cases hid
            · rw [if_neg he] at hid
              exact ih _ hpos hid
      · cases hb : get_neg_bitmap d (slice.getD m ⟨0, by omega⟩) (slice.length - 1 - m) with
        | none =>
          rw [matchAtNegLoop_lit_none d slice m _ hc hb] at hid
          cases hid
        | some cb =>
          cases acc with
          | none =>
            rw [matchAtNegLoop_lit_start d slice m hc hb] at hid
            exact ih _ hpos hid
          | some r =>
            rw [matchAtNegLoop_lit_step d slice m r hc hb] at hid
            by_cases he : r ∩ cb = ∅
            · rw [if_pos he, he] at hid
              cases hid
            · rw [if_neg he] at hid
              exact ih _ hpos hid

theorem match_at_pos_subset (d : List BStr) (slice : BStr) (hne : slice ≠ []) :
    ∀ id ∈ match_at_pos d slice 0,
      id < d.length ∧ slice.length ≤ (value d id).length := by
  intro id hid
  unfold match_at_pos at hid
  by_cases hreq : 0 < 0 + slice.length ∧ 0 + slice.length ≤ maxLength d
  · rw [if_pos hreq] at hid
    by_cases he : get_length_range d (0 + slice.length) (-1) = ∅
    · rw [if_pos he, he] at hid
      cases hid
    · rw [if_neg he] at hid
      have hsub := matchAtPosLoop_subset_acc d slice 0 _ hid
      rw [get_length_range_neg_one, Finset.mem_filter, Finset.mem_range] at hsub
      exact ⟨hsub.1, by omega⟩
  · rw [if_neg hreq] at hid
    push_neg at hreq
    have h1 : 0 < slice.length := List.length_pos.mpr hne
    have hgt : maxLength d < 0 + slice.length := hreq (by omega)
    have hkill := matchAtPosLoop_subset_kill d slice 0 none hne hid
    rw [Finset.mem_filter, Finset.mem_range] at hkill
    have htl := truncVal_length_le d hkill.1
    exfalso
    unfold maxLength at hgt
    omega

theorem match_at_neg_pos_subset (d : List BStr) (slice : BStr) (hne : slice ≠ []) :
    ∀ id ∈ match_at_neg_pos d slice 0,
      id < d.length ∧ slice.length ≤ (value d id).length := by
  intro id hid
  unfold match_at_neg_pos at hid
  have h1 : 0 < slice.length := List.length_pos.mpr hne
  by_cases hreq : 0 < slice.length ∧ slice.length ≤ maxLength d
  · rw [if_pos hreq] at hid
    by_cases he : get_length_range d slice.length (-1) = ∅
    · rw [if_pos he, he] at hid
      cases hid
    · rw [if_neg he] at hid
      have hsub := matchAtNegLoop_subset_acc d slice slice.length _ hid
      rw [get_length_range_neg_one, Finset.mem_filter, Finset.mem_range] at hsub
      exact ⟨hsub.1, by omega⟩
  · rw [if_neg hreq] at hid
    push_neg at hreq
    have hgt : maxLength d < slice.length := hreq h1
    have hkill := matchAtNegLoop_subset_kill d slice slice.length none h1 hid
    rw [Finset.mem_filter, Finset.mem_range] at hkill
    have htl := truncVal_length_le d hkill.1
    exfalso
    unfold maxLength at hgt
    omega

theorem matches_at_position_length {pat : BStr} :
    ∀ {s : BStr}, matches_at_position s pat = true → pat.length ≤ s.length := by
  induction pat with
  | nil =>
    intro s _
    simp
  | cons c ps ih =>
    intro s h
    cases s with
    | nil =>
      unfold matches_at_position at h
      cases h
    | cons a ss =>
      unfold matches_at_position at h
      by_cases hc : c = underscore
      · rw [if_pos hc] at h
        have := ih h
        simp only [List.length_cons]
        omega
      · rw [if_neg hc] at h
        by_cases ha : a = c
        · rw [if_pos ha] at h
          have := ih h
          simp only [List.length_cons]
          omega
        · rw [if_neg ha] at h
          cases h

theorem find_pattern_le {pat : BStr} :
    ∀ {s : BStr} {q : ℕ}, find_pattern s pat = some q → q + pat.length ≤ s.length := by
  intro s
  induction s with
  | nil =>
    intro q h
    unfold find_pattern at h
    cases h
  | cons a ss ih =>
    intro q h
    unfold find_pattern at h
    by_cases hm : matches_at_position (a :: ss) pat = true
    · rw [if_pos hm] at h
      have hq : q = 0 := by
        cases h
        rfl
      subst hq
      simpa using matches_at_position_length hm
    · rw [if_neg hm] at h
      cases hfq : find_pattern ss pat with
      | none =>
        rw [hfq] at h
        cases h
      | some q2 =>
        rw [hfq] at h
        simp only [Option.map_some'] at h
        have hq : q = q2 + 1 := by
          cases h
          rfl
        subst hq
        have := ih hfq
        simp only [List.length_cons]
        omega

theorem contains_substring_length {s pat : BStr}
    (h : contains_substring s pat = true) : pat.length ≤ s.length := by
  unfold contains_substring at h
  cases hfp : find_pattern s pat with
  | none =>
    rw [hfp] at h
    cases h
  | some q =>
    have := find_pattern_le hfp
    omega

theorem lengthBitmap_some {d : List BStr} {k : ℕ} {lb : Finset ℕ}
    (h : lengthBitmap d k = some lb) :
    lb = (Finset.range d.length).filter (fun id => (value d id).length = k) := by
  unfold lengthBitmap at h
  by_cases hk : k < maxLength d
  · rw [if_pos hk] at h
    by_cases hne : ((Finset.range d.length).filter
        (fun id => (value d id).length = k)).Nonempty
    · rw [if_pos hne] at h
      exact (Option.some_injective _ h).symm
    · rw [if_neg hne] at h
      cases h
  · rw [if_neg hk] at h
    cases h


theorem multiVerifyStage_mem {d : List BStr} {info : PatternInfo} {r3 : Finset ℕ}
    {res : List ℕ} {id : ℕ} (h : multiVerifyStage d info r3 = some res)
    (hid : id ∈ res) : id ∈ r3 := by
  unfold multiVerifyStage at h
  by_cases he : r3 = ∅
  · rw [if_pos he] at h
    cases h
    cases hid
  · rw [if_neg he] at h
    cases h
    rw [mem_roaring_to_array] at hid
    unfold verify_multislice_pattern at hid
    exact Finset.mem_of_mem_filter _ hid

theorem multiSuffixStage_mem {d : List BStr} {info : PatternInfo} {r2 : Finset ℕ}
    {res : List ℕ} {id : ℕ} (h : multiSuffixStage d info r2 = some res)
    (hid : id ∈ res) : id ∈ r2 := by
  unfold multiSuffixStage at h
  by_cases he : r2 = ∅
  · rw [if_pos he] at h
    cases h
    cases hid
  · rw [if_neg he] at h
    have h3 := multiVerifyStage_mem h hid
    by_cases hb : info.ends_with_percent
    · rwa [if_pos hb] at h3
    · rw [if_neg hb] at h3
      exact Finset.mem_of_mem_inter_left h3

theorem multiPrefixStage_mem {d : List BStr} {info : PatternInfo} {r1 : Finset ℕ}
    {res : List ℕ} {id : ℕ} (h : multiPrefixStage d info r1 = some res)
    (hid : id ∈ res) : id ∈ r1 := by
  unfold multiPrefixStage at h
  by_cases he : r1 = ∅
  · rw [if_pos he] at h
    cases h
    cases hid
  · rw [if_neg he] at h
    have h2 := multiSuffixStage_mem h hid
    by_cases hb : info.starts_with_percent
    · rwa [if_pos hb] at h2
    · rw [if_neg hb] at h2
      exact Finset.mem_of_mem_inter_left h2

theorem multiSlicePath_mem {d : List BStr} {info : PatternInfo}
    {res : List ℕ} {id : ℕ} (h : multiSlicePath d info = some res)
    (hid : id ∈ res) :
    (info.slices.map pattern_length_with_underscores).sum ≤ (value d id).length := by
  unfold multiSlicePath at h
  cases hcl : candLoop d info.slices none with
  | none =>
    rw [hcl] at h
    cases h
  | some cand =>
    rw [hcl] at h
    have h0 : (if cand = ∅ then some []
        else multiPrefixStage d info
          (cand ∩ get_length_range d
            ((info.slices.map pattern_length_with_underscores).sum) (-1)))
        = some res := h
    by_cases hce : cand = ∅
    · rw [if_pos hce] at h0
      cases h0
      cases hid
    · rw [if_neg hce] at h0
      have h1 := multiPrefixStage_mem h0 hid
      have h2 := Finset.mem_of_mem_inter_right h1
      rw [get_length_range_neg_one, Finset.mem_filter] at h2
      exact h2.2.1

theorem singleSlicePath_mem {d : List BStr} {info : PatternInfo}
    (hne : info.slices.headD [] ≠ []) (hnp : percent ∉ info.slices.headD [])
    {res : List ℕ} {id : ℕ} (h : singleSlicePath d info = some res)
    (hid : id ∈ res) :
    (info.slices.headD []).length ≤ (value d id).length ∧
    (¬info.starts_with_percent → ¬info.ends_with_percent →
      (value d id).length = (info.slices.headD []).length) := by
  unfold singleSlicePath at h
  cases hgcc : get_char_candidates d (info.slices.headD []) with
  | none =>
    rw [hgcc] at h
    cases h
  | some cand =>
    rw [hgcc] at h
    have h0 : (if cand = ∅ then some []
        else if ¬info.starts_with_percent ∧ ¬info.ends_with_percent then
          (match lengthBitmap d (pattern_length_with_underscores (info.slices.headD [])) with
           | some lb => some (roaring_to_array (match_at_pos d (info.slices.headD []) 0 ∩ lb))
           | none => some (roaring_to_array (∅ : Finset ℕ)))
        else if ¬info.starts_with_percent ∧ info.ends_with_percent then
          some (roaring_to_array (match_at_pos d (info.slices.headD []) 0 ∩ cand))
        else if info.starts_with_percent ∧ ¬info.ends_with_percent then
          some (roaring_to_array (match_at_neg_pos d (info.slices.headD []) 0 ∩ cand))
        else
          some (roaring_to_array
            (cand.filter (fun id => contains_substring (value d id) (info.slices.headD [])))))
        = some res := h
    clear h
    rename' h0 => h
    by_cases hce : cand = ∅
    · rw [if_pos hce] at h
      cases h
      cases hid
    · rw [if_neg hce] at h
      by_cases hb1 : ¬info.starts_with_percent ∧ ¬info.ends_with_percent
      · rw [if_pos hb1] at h
        cases hlb : lengthBitmap d (pattern_length_with_underscores (info.slices.headD [])) with
        | some lb =>
          rw [hlb] at h
          cases h
          rw [mem_roaring_to_array] at hid
          have hid2 := Finset.mem_of_mem_inter_right hid
          rw [lengthBitmap_some hlb, Finset.mem_filter] at hid2
          have heq : (value d id).length = (info.slices.headD []).length := by
            rw [hid2.2, plu_no_percent hnp]
          exact ⟨le_of_eq heq.symm, fun _ _ => heq⟩
        | none =>
          rw [hlb] at h
          cases h
          rw [mem_roaring_to_array] at hid
          cases hid
      · rw [if_neg hb1] at h
        have hvac : ¬info.starts_with_percent → ¬info.ends_with_percent →
            (value d id).length = (info.slices.headD []).length :=
          fun hs hends => absurd ⟨hs, hends⟩ hb1
        by_cases hb2 : ¬info.starts_with_percent ∧ info.ends_with_percent
        · rw [if_pos hb2] at h
          cases h
          rw [mem_roaring_to_array] at hid
          have := match_at_pos_subset d _ hne id (Finset.mem_of_mem_inter_left hid)
          exact ⟨this.2, hvac⟩
        · rw [if_neg hb2] at h
          by_cases hb3 : info.starts_with_percent ∧ ¬info.ends_with_percent
          · rw [if_pos hb3] at h
            cases h
            rw [mem_roaring_to_array] at hid
            have := match_at_neg_pos_subset d _ hne id (Finset.mem_of_mem_inter_left hid)
            exact ⟨this.2, hvac⟩
          · rw [if_neg hb3] at h
            cases h
            rw [mem_roaring_to_array, Finset.mem_filter] at hid
            exact ⟨contains_substring_length hid.2, hvac⟩

theorem analyze_slices_eq (p : BStr) :
    (analyze_pattern p).slices = splitSlicesAux p [] := rfl

theorem countP_wildcards {p : BStr}
    (hchars : ∀ c ∈ p, c = underscore ∨ c = percent) :
    pattern_length_with_underscores p
      = p.countP (fun c => decide (c = underscore)) := by
  unfold pattern_length_with_underscores
  induction p with
  | nil => rfl
  | cons c rest ih =>
    have hc := hchars c (by simp)
    have hrest : ∀ c2 ∈ rest, c2 = underscore ∨ c2 = percent :=
      fun c2 hc2 => hchars c2 (by simp [hc2])
    have hstep := ih hrest
    rcases hc with h | h <;> subst h
    · simp only [List.countP_cons, hstep,
        show decide ((underscore : Byte) ≠ percent) = true from by decide,
        show decide ((underscore : Byte) = underscore) = true from by decide]
      simp
    · simp only [List.countP_cons, hstep,
        show decide ((percent : Byte) ≠ percent) = false from by decide,
        show decide ((percent : Byte) = underscore) = false from by decide]

/-- C2: every id returned by optimized_query has a stored value at least
as long as the pattern count of non-percent bytes; and when the pattern
has no percent at all, the stored value has exactly that length. -/
theorem returned_ids_respect_length (d : List BStr) (p : BStr) (res : List ℕ)
    (id : ℕ) (h : optimized_query d p = some res) (hid : id ∈ res) :
    pattern_length_with_underscores p ≤ (value d id).length ∧
    (percent ∉ p → (value d id).length = pattern_length_with_underscores p) := by
  unfold optimized_query at h
  by_cases hp : p = [percent]
  · subst hp
    constructor
    · rw [show pattern_length_with_underscores [percent] = 0 from by decide]
      exact Nat.zero_le _
    · intro hnp
      exact absurd (by simp) hnp
  · rw [if_neg hp] at h
    by_cases how : p.all (fun c => decide (c = underscore) || decide (c = percent)) = true
    · rw [if_pos how] at h
      have hchars : ∀ c ∈ p, c = underscore ∨ c = percent := by
        intro c hc
        have := (List.all_eq_true.mp how) c hc
        simpa using this
      have hcount := countP_wildcards hchars
      by_cases hany : p.any (fun c => decide (c = percent)) = true
      · rw [if_neg (not_not_intro hany)] at h
        cases h
        rw [mem_roaring_to_array, get_length_range_neg_one, Finset.mem_filter] at hid
        constructor
        · rw [hcount]
          exact hid.2.1
        · intro hnp
          exfalso
          obtain ⟨c, hc, he⟩ := List.any_eq_true.mp hany
          simp only [decide_eq_true_eq] at he
          exact hnp (he ▸ hc)
      · rw [if_pos hany] at h
        cases h
        rw [mem_roaring_to_array, mem_asSet_lengthBitmap] at hid
        constructor
        · rw [hcount, ← hid.2.2]
        · intro _
          rw [hid.2.2, hcount]
    · rw [if_neg how] at h
      by_cases h0 : (analyze_pattern p).slices.length = 0
      · rw [if_pos h0] at h
        cases h
        have hjoin := splitSlicesAux_join p []
        have hnil : splitSlicesAux p [] = [] := by
          rw [analyze_slices_eq] at h0
          exact List.length_eq_zero.mp h0
        rw [hnil] at hjoin
        simp only [List.join_nil, List.reverse_nil, List.nil_append] at hjoin
        have hfilter : p.filter (fun c => decide (c ≠ percent)) = [] := hjoin.symm
        have hk : pattern_length_with_underscores p = 0 := by
          unfold pattern_length_with_underscores
          rw [List.countP_eq_length_filter, hfilter]
          rfl
        constructor
        · rw [hk]
          exact Nat.zero_le _
        · intro hnp
          exfalso
          cases hpe : p with
          | nil =>
            subst hpe
            exact how (by simp)
          | cons c rest =>
            have hcm : c ∈ p := by rw [hpe]; simp
            have : c ∉ p.filter (fun c2 => decide (c2 ≠ percent)) := by
              rw [hfilter]
              simp
            rw [List.mem_filter] at this
            push_neg at this
            have := this hcm
            simp only [decide_eq_true_eq, ne_eq, Decidable.not_not] at this
            exact hnp (this ▸ hcm)
      · rw [if_neg h0] at h
        by_cases h1 : (analyze_pattern p).slices.length = 1
        · rw [if_pos h1] at h
          obtain ⟨sl, hsl⟩ := List.length_eq_one.mp h1
          have hslmem : sl ∈ splitSlicesAux p [] := by
            rw [← analyze_slices_eq, hsl]
            simp
          obtain ⟨hslne, hslnp⟩ := splitSlicesAux_slices (by simp) sl hslmem
          have hhd : (analyze_pattern p).slices.headD [] = sl := by
            rw [hsl]
            rfl
          have hmem := singleSlicePath_mem
            (by rw [hhd]; exact hslne) (by rw [hhd]; exact hslnp) h hid
          rw [hhd] at hmem
          have hk : pattern_length_with_underscores p = sl.length := by
            unfold pattern_length_with_underscores
            rw [List.countP_eq_length_filter]
            have hjoin := splitSlicesAux_join p []
            rw [← analyze_slices_eq, hsl] at hjoin
            simp only [List.join_cons, List.join_nil, List.reverse_nil,
              List.nil_append, List.append_nil] at hjoin
            rw [← hjoin]
          constructor
          · rw [hk]
            exact hmem.1
          · intro hnp
            have hst : ¬(analyze_pattern p).starts_with_percent = true := by
              simp only [analyze_pattern, decide_eq_true_eq, not_and]
              intro _ hh
              exact absurd (List.mem_of_mem_head? hh) hnp
            have hen : ¬(analyze_pattern p).ends_with_percent = true := by
              simp only [analyze_pattern, decide_eq_true_eq, not_and]
              intro _ hh
              exact absurd (List.mem_of_mem_getLast? hh) hnp
            rw [hk]
            exact hmem.2 hst hen
        · rw [if_neg h1] at h
          have hsum := multiSlicePath_mem h hid
          have hk : (((analyze_pattern p).slices).map pattern_length_with_underscores).sum
              = pattern_length_with_underscores p := by
            rw [analyze_slices_eq]
            exact sum_slice_lengths p
          constructor
          · rw [← hk]
            exact hsum
          · intro hnp
            exfalso
            have := splitSlicesAux_no_percent hnp []
            rw [← analyze_slices_eq] at this
            by_cases hpn : ([] : BStr).reverse ++ p = []
            · rw [if_pos hpn] at this
              rw [this] at h0
              exact h0 rfl
            · rw [if_neg hpn] at this
              rw [this] at h1
              exact h1 rfl

/-- Any successful multiVerifyStage result is the ascending enumeration of
some bitmap. -/
theorem multiVerifyStage_shape {d : List BStr} {info : PatternInfo}
    {r3 : Finset ℕ} {res : List ℕ} (h : multiVerifyStage d info r3 = some res) :
    ∃ b : Finset ℕ, res = roaring_to_array b := by
  unfold multiVerifyStage at h
  by_cases h3 : r3 = ∅
  · rw [if_pos h3] at h
    cases h
    exact ⟨∅, roaring_to_array_empty.symm⟩
  · rw [if_neg h3] at h
    cases h
    exact ⟨_, rfl⟩

/-- Any successful multiSuffixStage result is the ascending enumeration of
some bitmap. -/
theorem multiSuffixStage_shape {d : List BStr} {info : PatternInfo}
    {r2 : Finset ℕ} {res : List ℕ} (h : multiSuffixStage d info r2 = some res) :
    ∃ b : Finset ℕ, res = roaring_to_array b := by
  unfold multiSuffixStage at h
  by_cases h2 : r2 = ∅
  · rw [if_pos h2] at h
    cases h
    exact ⟨∅, roaring_to_array_empty.symm⟩
  · rw [if_neg h2] at h
    exact multiVerifyStage_shape h

/-- Any successful multiPrefixStage result is the ascending enumeration of
some bitmap. -/
theorem multiPrefixStage_shape {d : List BStr} {info : PatternInfo}
    {r1 : Finset ℕ} {res : List ℕ} (h : multiPrefixStage d info r1 = some res) :
    ∃ b : Finset ℕ, res = roaring_to_array b := by
  unfold multiPrefixStage at h
  by_cases h1 : r1 = ∅
  · rw [if_pos h1] at h
    cases h
    exact ⟨∅, roaring_to_array_empty.symm⟩
  · rw [if_neg h1] at h
    exact multiSuffixStage_shape h

/-- Any successful multiSlicePath result is the ascending enumeration of
some bitmap. -/
theorem multiSlicePath_shape {d : List BStr} {info : PatternInfo}
    {res : List ℕ} (h : multiSlicePath d info = some res) :
    ∃ b : Finset ℕ, res = roaring_to_array b := by
  unfold multiSlicePath at h
  cases hcl : candLoop d info.slices none with
  | none =>
    rw [hcl] at h
    cases h
  | some cand =>
    rw [hcl] at h
    have h0 : (if cand = ∅ then some []
        else multiPrefixStage d info
          (cand ∩ get_length_range d
            ((info.slices.map pattern_length_with_underscores).sum) (-1)))
        = some res := h
    by_cases hce : cand = ∅
    · rw [if_pos hce] at h0
      cases h0
      exact ⟨∅, roaring_to_array_empty.symm⟩
    · rw [if_neg hce] at h0
      exact multiPrefixStage_shape h0

/-- Any successful singleSlicePath result is the ascending enumeration of
some bitmap. -/
theorem singleSlicePath_shape {d : List BStr} {info : PatternInfo}
    {res : List ℕ} (h : singleSlicePath d info = some res) :
    ∃ b : Finset ℕ, res = roaring_to_array b := by
  unfold singleSlicePath at h
  cases hgcc : get_char_candidates d (info.slices.headD []) with
  | none =>
    rw [hgcc] at h
    cases h
  | some cand =>
    rw [hgcc] at h
    have h0 : (if cand = ∅ then some []
        else if ¬info.starts_with_percent ∧ ¬info.ends_with_percent then
          (match lengthBitmap d (pattern_length_with_underscores (info.slices.headD [])) with
           | some lb => some (roaring_to_array (match_at_pos d (info.slices.headD []) 0 ∩ lb))
           | none => some (roaring_to_array (∅ : Finset ℕ)))
        else if ¬info.starts_with_percent ∧ info.ends_with_percent then
          some (roaring_to_array (match_at_pos d (info.slices.headD []) 0 ∩ cand))
        else if info.starts_with_percent ∧ ¬info.ends_with_percent then
          some (roaring_to_array (match_at_neg_pos d (info.slices.headD []) 0 ∩ cand))
        else
          some (roaring_to_array
            (cand.filter (fun id => contains_substring (value d id) (info.slices.headD [])))))
        = some res := h
    clear h
    rename' h0 => h
    by_cases hce : cand = ∅
    · rw [if_pos hce] at h
      cases h
      exact ⟨∅, roaring_to_array_empty.symm⟩
    · rw [if_neg hce] at h
      by_cases hb1 : ¬info.starts_with_percent ∧ ¬info.ends_with_percent
      · rw [if_pos hb1] at h
        cases hlb : lengthBitmap d (pattern_length_with_underscores (info.slices.headD [])) with
        | some lb =>
          rw [hlb] at h
          cases h
          exact ⟨_, rfl⟩
        | none =>
          rw [hlb] at h
          cases h
          exact ⟨_, rfl⟩
      · rw [if_neg hb1] at h
        by_cases hb2 : ¬info.starts_with_percent ∧ info.ends_with_percent
        · rw [if_pos hb2] at h
          cases h
          exact ⟨_, rfl⟩
        · rw [if_neg hb2] at h
          by_cases hb3 : info.starts_with_percent ∧ ¬info.ends_with_percent
          · rw [if_pos hb3] at h
            cases h
            exact ⟨_, rfl⟩
          · rw [if_neg hb3] at h
            cases h
            exact ⟨_, rfl⟩

/-- Every successful optimized_query result is either the full id range or
the ascending enumeration of some bitmap. -/
theorem optimized_query_shape {d : List BStr} {p : BStr} {res : List ℕ}
    (h : optimized_query d p = some res) :
    res = List.range d.length ∨ ∃ b : Finset ℕ, res = roaring_to_array b := by
  unfold optimized_query at h
  by_cases hp : p = [percent]
  · rw [if_pos hp] at h
    cases h
    exact Or.inl rfl
  · rw [if_neg hp] at h
    by_cases how : p.all (fun c => decide (c = underscore) || decide (c = percent)) = true
    · rw [if_pos how] at h
      by_cases hany : ¬p.any (fun c => decide (c = percent)) = true
      · rw [if_pos hany] at h
        cases h
        exact Or.inr ⟨_, rfl⟩
      · rw [if_neg hany] at h
        cases h
        exact Or.inr ⟨_, rfl⟩
    · rw [if_neg how] at h
      by_cases h0 : (analyze_pattern p).slices.length = 0
      · rw [if_pos h0] at h
        cases h
        exact Or.inl rfl
      · rw [if_neg h0] at h
        by_cases h1 : (analyze_pattern p).slices.length = 1
        · rw [if_pos h1] at h
          exact Or.inr (singleSlicePath_shape h)
        · rw [if_neg h1] at h
          exact Or.inr (multiSlicePath_shape h)

/-- C8: every id array that optimized_query returns is strictly ascending
(so each id appears at most once), and the rows function enumerates
exactly that array, pairing each id with its stored value in the same
order. -/
theorem returned_ids_sorted (d : List BStr) (p : BStr) (res : List ℕ)
    (h : optimized_query d p = some res) :
    List.Sorted (fun a b : ℕ => a < b) res ∧
    optimized_like_query_rows (some d) p
      = some (res.map (fun id => (id, value d id))) := by
  constructor
  · rcases optimized_query_shape h with hr | ⟨b, hb⟩
    · rw [hr, ← roaring_to_array_range]
      exact roaring_to_array_sorted _
    · rw [hb]
      exact roaring_to_array_sorted b
  · show (optimized_query d p).map (fun l => l.map (fun id => (id, value d id)))
        = some (res.map (fun id => (id, value d id)))
    rw [h]
    rfl

/-- Witness for the ordering theorem: the pattern consisting of the single
percent byte over the three-byte corpus returns the array containing the
single id 0, which is sorted, and the rows function pairs it with the
stored value. -/
theorem returned_ids_sorted_witness :
    List.Sorted (fun a b : ℕ => a < b) [0] ∧
    optimized_like_query_rows (some crashCorpus) [percent]
      = some ([0].map (fun id => (id, value crashCorpus id))) :=
  returned_ids_sorted crashCorpus [percent] [0] rfl

/-- Witness for the length-respect theorem: the pattern a-then-percent
over the corpus with the single value ab returns record 0, whose stored
value has length 2, at least the one non-percent pattern byte. -/
theorem returned_ids_respect_length_witness :
    pattern_length_with_underscores [⟨97, by omega⟩, percent]
      ≤ (value [[⟨97, by omega⟩, ⟨98, by omega⟩]] 0).length ∧
    (percent ∉ ([⟨97, by omega⟩, percent] : BStr) →
      (value [[⟨97, by omega⟩, ⟨98, by omega⟩]] 0).length
        = pattern_length_with_underscores [⟨97, by omega⟩, percent]) := by
  have hq : optimized_query [[⟨97, by omega⟩, ⟨98, by omega⟩]]
      [⟨97, by omega⟩, percent] = some (roaring_to_array {0}) := rfl
  exact returned_ids_respect_length [[⟨97, by omega⟩, ⟨98, by omega⟩]]
    [⟨97, by omega⟩, percent] [0] 0
    (by rw [hq, roaring_to_array_singleton]) (by simp)

/-- Witness for the amended pure-wildcard theorem: on the one-record
corpus with a single one-byte value, the single-underscore pattern is a
pure-wildcard pattern without percent over a clean corpus. -/
theorem pure_wildcard_query_witness :
    optimized_query [[⟨97, by omega⟩]] [underscore]
      = some (roaring_to_array
          ((Finset.range ([[⟨97, by omega⟩]] : List BStr).length).filter (fun id =>
            if percent ∈ ([underscore] : BStr) then
              ([underscore] : BStr).countP (fun c => decide (c = underscore))
                ≤ (value [[⟨97, by omega⟩]] id).length
            else
              (value [[⟨97, by omega⟩]] id).length
                = ([underscore] : BStr).countP (fun c => decide (c = underscore))))) :=
  pure_wildcard_query [[⟨97, by omega⟩]] [underscore] (by decide) (by decide)

/-- C9 counterexample: match_pattern does not collapse double percents in
general.  On the subject percent-percent-a the pattern
percent-percent-a matches (each pattern byte consumed literally), but the
collapsed pattern percent-a does not: the loop eats the pattern percent
as a literal against the subject percent and then has no star left. -/
theorem percent_collapse_fails_on_percent_subject :
    match_pattern [percent, percent, ⟨97, by omega⟩]
        [percent, percent, ⟨97, by omega⟩] = true ∧
    match_pattern [percent, percent, ⟨97, by omega⟩]
        [percent, ⟨97, by omega⟩] = false := by
  constructor
  · simp [match_pattern, mpLoop, cAt, percent, underscore]
  · simp [match_pattern, mpLoop, cAt, percent, underscore]

/-- Witness for the amended collapse theorem: on the percent-free subject
a, the pattern percent-percent-a matches exactly when percent-a does. -/
theorem match_pattern_percent_collapse_witness :
    match_pattern [⟨97, by omega⟩]
        (([] : BStr) ++ percent :: percent :: [⟨97, by omega⟩])
      = match_pattern [⟨97, by omega⟩] (([] : BStr) ++ percent :: [⟨97, by omega⟩]) :=
  match_pattern_percent_collapse [⟨97, by omega⟩] [] [⟨97, by omega⟩] (by decide)
